import Mathlib

/-!
# Verification of the CHomP3R chain-algebra and cubical-boundary core

This file gives a shallow embedding of the core data structures and
algorithms of the CHomP3R repository and proves the specification claims
about them.

* `amFind`, `amGet`, `amInsert`, … model `detail::AssociativeModule`
  (`src/chomp/chomp/algebra/modules.hpp`): a chain stored as an
  associative container of (basis element, coefficient) pairs.  The
  `std::map` / `std::unordered_map` backings differ only in iteration
  order, which the list model represents by the order of entries.
* `usGet`, `usInsert`, … model `detail::UniqueModule` (same header):
  the set-backed chain for binary rings, coefficients implicit.
* `zval` models the representative computation of the cyclic ring
  `Z<p>` (`src/chomp/chomp/algebra/cyclic.hpp`); C++ `%` on `int`
  truncates towards zero, which is `Int.tmod`.
* `Cube`, `CubicalComplex`, `boundaryFold`, `coboundaryFold`, … model
  `src/chomp/chomp/complexes/cubical.hpp`.  Orthant coordinates are
  unsigned (`ℕ`); extents are `ℕ` bit masks exactly as the `std::size_t`
  extents of the source.
* `linearApply` models `linear_apply` (`src/chomp/chomp/algebra/algebra.hpp`),
  `smulAssign` models `operator*=`, and `cacheAccess` models
  `LRUCache::operator[]` (`src/chomp/chomp/util/cache.hpp`).

The coefficient ring of the source is a C++ concept (`Ring`); it is
embedded as a Mathlib `Ring`/`CommRing` typeclass (all rings supplied by
the repository, the cyclic rings `Z<p>`, are commutative).
-/

set_option linter.unusedSectionVars false

namespace Chomp

/-! ## The associative (map-backed) chain model

`detail::AssociativeModule` stores a chain in an associative container
mapping basis elements to coefficients.  We model the container as a
list of key/value pairs; `amFind` is `cells.find`, `amErase` is
`cells.erase` of the found node, `amUpdate` is the in-place mutation of
the found node's mapped value. -/

section AssocModule

variable {T R : Type} [DecidableEq T] [DecidableEq R] [Ring R]

/-- `cells.find(x)`: the coefficient stored for `x`, if any. -/
def amFind : List (T × R) → T → Option R
  | [], _ => none
  | p :: rest, x => if p.1 = x then some p.2 else amFind rest x

/-- `AssociativeModule::operator[]`: stored coefficient, or zero if absent. -/
def amGet (m : List (T × R)) (x : T) : R :=
  (amFind m x).getD 0

/-- `cells.erase(it)` of the node found for key `x`. -/
def amErase : List (T × R) → T → List (T × R)
  | [], _ => []
  | p :: rest, x => if p.1 = x then rest else p :: amErase rest x

/-- In-place mutation `it->second = v` of the node found for key `x`. -/
def amUpdate : List (T × R) → T → R → List (T × R)
  | [], _, _ => []
  | p :: rest, x, v => if p.1 = x then (p.1, v) :: rest else p :: amUpdate rest x v

/-- `AssociativeModule::insert(cell, coef)`: no-op on zero coefficient;
stores the pair if the key is absent; otherwise accumulates into the
stored coefficient, erasing the node if the sum is zero. -/
def amInsert (m : List (T × R)) (x : T) (v : R) : List (T × R) :=
  if v = 0 then m
  else
    match amFind m x with
    | none => m ++ [(x, v)]
    | some r => if r + v = 0 then amErase m x else amUpdate m x (r + v)

/-- Iteration over a chain visits its keys (`KeyIterator`). -/
def amKeys (m : List (T × R)) : List T :=
  m.map Prod.fst

/-- The representation invariant of the associative container: keys are
unique, and (the chain invariant) no stored coefficient is zero. -/
def amValid (m : List (T × R)) : Prop :=
  (amKeys m).Nodup ∧ ∀ p ∈ m, p.2 ≠ (0 : R)

theorem amInsert_zero {m : List (T × R)} {x : T} {v : R} (hv : v = 0) :
    amInsert m x v = m := by
  rw [amInsert, if_pos hv]

theorem amInsert_of_find_none {m : List (T × R)} {x : T} {v : R}
    (hv : ¬v = 0) (hf : amFind m x = none) :
    amInsert m x v = m ++ [(x, v)] := by
  rw [amInsert, if_neg hv, hf]

theorem amInsert_of_find_some {m : List (T × R)} {x : T} {v r : R}
    (hv : ¬v = 0) (hf : amFind m x = some r) :
    amInsert m x v = if r + v = 0 then amErase m x else amUpdate m x (r + v) := by
  rw [amInsert, if_neg hv, hf]

theorem amFind_eq_none {m : List (T × R)} {x : T} :
    amFind m x = none ↔ x ∉ amKeys m := by
  induction m with
  | nil => simp [amFind, amKeys]
  | cons p rest ih =>
    by_cases h : p.1 = x
    · subst h
      simp [amFind, amKeys]
    · rw [amFind, if_neg h, ih]
      simp only [amKeys, List.map_cons, List.mem_cons]
      constructor
      · intro hn hmem
        rcases hmem with he | hm
        · exact h he.symm
        · exact hn hm
      · intro hn hm
        exact hn (Or.inr hm)

theorem amFind_mem {m : List (T × R)} {x : T} {r : R}
    (h : amFind m x = some r) : (x, r) ∈ m := by
  induction m with
  | nil => simp [amFind] at h
  | cons p rest ih =>
    by_cases hp : p.1 = x
    · subst hp
      rw [amFind, if_pos rfl, Option.some.injEq] at h
      subst h
      simp
    · rw [amFind, if_neg hp] at h
      exact List.mem_cons_of_mem _ (ih h)

theorem amFind_isSome_of_mem_keys {m : List (T × R)} {x : T}
    (h : x ∈ amKeys m) : ∃ r, amFind m x = some r ∧ (x, r) ∈ m := by
  cases hf : amFind m x with
  | none => exact absurd h (amFind_eq_none.mp hf)
  | some r => exact ⟨r, rfl, amFind_mem hf⟩

theorem amGet_eq_zero_of_not_mem {m : List (T × R)} {x : T}
    (h : x ∉ amKeys m) : amGet m x = 0 := by
  rw [amGet, amFind_eq_none.mpr h]; rfl

theorem mem_amKeys_iff {m : List (T × R)} (hm : amValid m) {x : T} :
    x ∈ amKeys m ↔ amGet m x ≠ 0 := by
  constructor
  · intro hx
    obtain ⟨r, hf, hmem⟩ := amFind_isSome_of_mem_keys hx
    rw [amGet, hf]
    exact hm.2 _ hmem
  · intro hne
    by_contra hx
    exact hne (amGet_eq_zero_of_not_mem hx)

theorem amFind_append {m l : List (T × R)} {x : T} :
    amFind (m ++ l) x =
      match amFind m x with
      | some r => some r
      | none => amFind l x := by
  induction m with
  | nil => simp [amFind]
  | cons p rest ih =>
    by_cases hp : p.1 = x
    · rw [List.cons_append, amFind, if_pos hp, amFind, if_pos hp]
    · rw [List.cons_append, amFind, if_neg hp, amFind, if_neg hp, ih]

theorem amFind_erase {m : List (T × R)} (hnd : (amKeys m).Nodup) {x z : T} :
    amFind (amErase m x) z = if z = x then none else amFind m z := by
  induction m with
  | nil => simp [amErase, amFind]
  | cons p rest ih =>
    have hcons := List.nodup_cons.mp (show (p.1 :: amKeys rest).Nodup from hnd)
    have hnd1 : p.1 ∉ amKeys rest := hcons.1
    have hnd2 : (amKeys rest).Nodup := hcons.2
    by_cases hp : p.1 = x
    · subst hp
      rw [amErase, if_pos rfl]
      by_cases hz : z = p.1
      · subst hz
        rw [if_pos rfl]
        exact amFind_eq_none.mpr hnd1
      · rw [if_neg hz, amFind, if_neg (fun h => hz h.symm)]
    · rw [amErase, if_neg hp, amFind]
      by_cases hpz : p.1 = z
      · rw [if_pos hpz]
        have hzx : ¬z = x := fun h => hp (hpz.trans h)
        rw [if_neg hzx, amFind, if_pos hpz]
      · rw [if_neg hpz, ih hnd2]
        by_cases hz : z = x
        · rw [if_pos hz, if_pos hz]
        · rw [if_neg hz, if_neg hz, amFind, if_neg hpz]

theorem amFind_update {m : List (T × R)} {x : T} {r v : R}
    (h : amFind m x = some r) {z : T} :
    amFind (amUpdate m x v) z = if z = x then some v else amFind m z := by
  induction m with
  | nil => simp [amFind] at h
  | cons p rest ih =>
    by_cases hp : p.1 = x
    · rw [amUpdate, if_pos hp, amFind]
      by_cases hpz : p.1 = z
      · have hzx : z = x := by rw [← hpz]; exact hp
        rw [if_pos hpz, if_pos hzx]
      · have hzx : ¬z = x := fun hc => hpz (hp.trans hc.symm)
        rw [if_neg hpz, if_neg hzx, amFind, if_neg hpz]
    · rw [amFind, if_neg hp] at h
      rw [amUpdate, if_neg hp, amFind]
      by_cases hpz : p.1 = z
      · rw [if_pos hpz]
        have hzx : ¬z = x := fun hc => hp (hpz.trans hc)
        rw [if_neg hzx, amFind, if_pos hpz]
      · rw [if_neg hpz, ih h, amFind, if_neg hpz]

theorem amKeys_append {m l : List (T × R)} :
    amKeys (m ++ l) = amKeys m ++ amKeys l := by
  simp [amKeys]

theorem amErase_sublist (m : List (T × R)) (x : T) :
    (amErase m x).Sublist m := by
  induction m with
  | nil => simp [amErase]
  | cons p rest ih =>
    by_cases hp : p.1 = x
    · rw [amErase, if_pos hp]
      exact List.sublist_cons_self p rest
    · rw [amErase, if_neg hp]
      exact ih.cons₂ p

theorem amKeys_erase_sublist (m : List (T × R)) (x : T) :
    (amKeys (amErase m x)).Sublist (amKeys m) :=
  (amErase_sublist m x).map Prod.fst

theorem amErase_subset {m : List (T × R)} {x : T} {p : T × R}
    (h : p ∈ amErase m x) : p ∈ m :=
  (amErase_sublist m x).subset h

theorem amKeys_update (m : List (T × R)) (x : T) (v : R) :
    amKeys (amUpdate m x v) = amKeys m := by
  induction m with
  | nil => rfl
  | cons p rest ih =>
    by_cases hp : p.1 = x
    · rw [amUpdate, if_pos hp]
      rfl
    · rw [amUpdate, if_neg hp]
      show p.1 :: amKeys (amUpdate rest x v) = p.1 :: amKeys rest
      rw [ih]

theorem amUpdate_mem {m : List (T × R)} {x : T} {v : R} {p : T × R}
    (h : p ∈ amUpdate m x v) : p ∈ m ∨ p.2 = v := by
  induction m with
  | nil => simp [amUpdate] at h
  | cons q rest ih =>
    by_cases hq : q.1 = x
    · rw [amUpdate, if_pos hq, List.mem_cons] at h
      rcases h with h | h
      · right; rw [h]
      · left; exact List.mem_cons_of_mem _ h
    · rw [amUpdate, if_neg hq, List.mem_cons] at h
      rcases h with h | h
      · left; exact h ▸ List.mem_cons_self q rest
      · rcases ih h with h' | h'
        · left; exact List.mem_cons_of_mem _ h'
        · right; exact h'

/-- `insert` preserves the representation invariant: keys stay unique and
no stored coefficient is ever zero. -/
theorem amValid_amInsert {m : List (T × R)} (hm : amValid m) (x : T) (v : R) :
    amValid (amInsert m x v) := by
  by_cases hv : v = 0
  · rw [amInsert_zero hv]; exact hm
  cases hf : amFind m x with
  | none =>
    rw [amInsert_of_find_none hv hf]
    refine ⟨?_, ?_⟩
    · rw [amKeys_append]
      rw [List.nodup_append]
      refine ⟨hm.1, List.nodup_singleton x, ?_⟩
      intro a ha hb
      have hb' : a = x := by simpa [amKeys] using hb
      subst hb'
      exact (amFind_eq_none.mp hf) ha
    · intro p hp
      rcases List.mem_append.mp hp with h | h
      · exact hm.2 _ h
      · have : p = (x, v) := by simpa using h
        rw [this]
        exact hv
  | some r =>
    rw [amInsert_of_find_some hv hf]
    by_cases hrv : r + v = 0
    · rw [if_pos hrv]
      exact ⟨(amKeys_erase_sublist m x).nodup hm.1,
             fun p hp => hm.2 _ (amErase_subset hp)⟩
    · rw [if_neg hrv]
      refine ⟨by rw [amKeys_update]; exact hm.1, ?_⟩
      intro p hp
      rcases amUpdate_mem hp with h | h
      · exact hm.2 _ h
      · rw [h]; exact hrv

/-- The central pointwise description of `insert`: the coefficient of any
cell `z` after `insert(x, v)` is the old coefficient plus `v` at `z = x`
and is unchanged elsewhere. -/
theorem amGet_amInsert {m : List (T × R)} (hm : amValid m) (x : T) (v : R)
    (z : T) :
    amGet (amInsert m x v) z = amGet m z + if z = x then v else 0 := by
  by_cases hv : v = 0
  · rw [amInsert_zero hv]
    subst hv
    simp
  cases hf : amFind m x with
  | none =>
    rw [amInsert_of_find_none hv hf, amGet, amFind_append]
    by_cases hz : z = x
    · subst hz
      rw [hf]
      have hgz : amGet m z = 0 :=
        amGet_eq_zero_of_not_mem (amFind_eq_none.mp hf)
      rw [hgz, if_pos rfl, zero_add]
      simp [amFind]
    · cases hfz : amFind m z with
      | none =>
        have hxz : ¬x = z := fun h => hz h.symm
        simp [amGet, hfz, amFind, hxz, hz]
      | some s => simp [amGet, hfz, hz]
  | some r =>
    rw [amInsert_of_find_some hv hf]
    by_cases hrv : r + v = 0
    · rw [if_pos hrv, amGet, amFind_erase hm.1]
      by_cases hz : z = x
      · subst hz
        rw [if_pos rfl, if_pos rfl, amGet, hf]
        show (0 : R) = r + v
        rw [hrv]
      · rw [if_neg hz, if_neg hz, amGet, add_zero]
    · rw [if_neg hrv, amGet, amFind_update hf]
      by_cases hz : z = x
      · subst hz
        rw [if_pos rfl, if_pos rfl, amGet, hf]
        rfl
      · rw [if_neg hz, if_neg hz, amGet, add_zero]

/-- Chains with the invariant are determined by their coefficient maps;
in particular a chain whose coefficients all vanish is the empty chain. -/
theorem amEmpty_of_get_eq_zero {m : List (T × R)} (hm : amValid m)
    (h : ∀ z, amGet m z = 0) : m = [] := by
  cases m with
  | nil => rfl
  | cons p rest =>
    exfalso
    have hmem : p.1 ∈ amKeys (p :: rest) := by simp [amKeys]
    exact (mem_amKeys_iff hm).mp hmem (h p.1)

theorem amKeys_amInsert_subset {m : List (T × R)} {x : T} {v : R} {z : T}
    (h : z ∈ amKeys (amInsert m x v)) : z = x ∨ z ∈ amKeys m := by
  by_cases hv : v = 0
  · rw [amInsert_zero hv] at h
    exact Or.inr h
  cases hf : amFind m x with
  | none =>
    rw [amInsert_of_find_none hv hf, amKeys_append] at h
    rcases List.mem_append.mp h with h' | h'
    · exact Or.inr h'
    · have : z = x := by simpa [amKeys] using h'
      exact Or.inl this
  | some r =>
    rw [amInsert_of_find_some hv hf] at h
    by_cases hrv : r + v = 0
    · rw [if_pos hrv] at h
      exact Or.inr ((amKeys_erase_sublist m x).subset h)
    · rw [if_neg hrv, amKeys_update] at h
      exact Or.inr h

end AssocModule

/-! ## The unique (set-backed) chain model

`detail::UniqueModule` stores a chain over a binary ring as a bare set
of basis elements; the coefficient of a present element is implicitly
`one`.  `insert` with a nonzero coefficient toggles membership. -/

section UniqueModule

variable {T R : Type} [DecidableEq T] [DecidableEq R] [Ring R]

/-- `UniqueModule::operator[]`: `one` if the cell is in the set, else zero. -/
def usGet (s : List T) (x : T) : R :=
  if x ∈ s then 1 else 0

/-- `cells.erase(it)` of the found element. -/
def usErase : List T → T → List T
  | [], _ => []
  | y :: rest, x => if y = x then rest else y :: usErase rest x

/-- `UniqueModule::insert(cell, coef)`: no-op on zero coefficient,
otherwise toggle membership of `cell`. -/
def usInsert (s : List T) (x : T) (v : R) : List T :=
  if v = 0 then s
  else if x ∈ s then usErase s x else s ++ [x]

theorem usErase_sublist (s : List T) (x : T) : (usErase s x).Sublist s := by
  induction s with
  | nil => simp [usErase]
  | cons y rest ih =>
    by_cases hy : y = x
    · rw [usErase, if_pos hy]
      exact List.sublist_cons_self y rest
    · rw [usErase, if_neg hy]
      exact ih.cons₂ y

theorem not_mem_usErase {s : List T} (hnd : s.Nodup) (x : T) :
    x ∉ usErase s x := by
  induction s with
  | nil => simp [usErase]
  | cons y rest ih =>
    have hcons := List.nodup_cons.mp hnd
    by_cases hy : y = x
    · rw [usErase, if_pos hy]
      rw [hy] at hcons
      exact hcons.1
    · rw [usErase, if_neg hy]
      intro hmem
      rcases List.mem_cons.mp hmem with h | h
      · exact hy h.symm
      · exact ih hcons.2 h

theorem usValid_usInsert {s : List T} (hnd : s.Nodup) (x : T) (v : R) :
    (usInsert s x v).Nodup := by
  by_cases hv : v = 0
  · rw [usInsert, if_pos hv]; exact hnd
  rw [usInsert, if_neg hv]
  by_cases hx : x ∈ s
  · rw [if_pos hx]
    exact (usErase_sublist s x).nodup hnd
  · rw [if_neg hx]
    rw [List.nodup_append]
    exact ⟨hnd, List.nodup_singleton x, fun a ha hb => by
      have : a = x := by simpa using hb
      subst this
      exact hx ha⟩

end UniqueModule

/-! ## Claim C1: the `insert` chain invariant -/

/-- C1.  For every chain (map-backed `AssociativeModule` or, over a
binary two-element ring, set-backed `UniqueModule` — the ordered and
hashed backings differ only in entry order, which the list model leaves
free), every cell `x` and ring value `v`: after `insert(x, v)` the
coefficient at `x` is the old coefficient plus `v`; if that sum is the
ring's zero then `x` is absent from iteration; and no stored entry ever
has a zero coefficient (the representation invariant is preserved). -/
theorem c1_insert_invariant :
    (∀ (T R : Type) [DecidableEq T] [DecidableEq R] [Ring R]
        (m : List (T × R)) (x : T) (v : R), amValid m →
      amGet (amInsert m x v) x = amGet m x + v ∧
      (amGet m x + v = 0 → x ∉ amKeys (amInsert m x v)) ∧
      amValid (amInsert m x v)) ∧
    (∀ (T R : Type) [DecidableEq T] [DecidableEq R] [Ring R]
        (s : List T) (x : T) (v : R), s.Nodup →
      (1 : R) + 1 = 0 → (1 : R) ≠ 0 → (∀ w : R, w = 0 ∨ w = 1) →
      usGet (usInsert s x v) x = (usGet s x : R) + v ∧
      ((usGet s x : R) + v = 0 → x ∉ usInsert s x v) ∧
      (usInsert s x v).Nodup) := by
  constructor
  · intro T R _ _ _ m x v hm
    have hg := amGet_amInsert hm x v x
    rw [if_pos rfl] at hg
    refine ⟨hg, ?_, amValid_amInsert hm x v⟩
    intro hzero
    intro hmem
    have := (mem_amKeys_iff (amValid_amInsert hm x v)).mp hmem
    rw [hg] at this
    exact this hzero
  · intro T R _ _ _ s x v hnd h2 h10 htwo
    refine ⟨?_, ?_, usValid_usInsert hnd x v⟩
    all_goals
      rcases htwo v with hv | hv
    · subst hv
      rw [usInsert, if_pos rfl, add_zero]
    · subst hv
      rw [usInsert, if_neg h10]
      by_cases hx : x ∈ s
      · rw [if_pos hx, usGet, if_neg (not_mem_usErase hnd x), usGet,
            if_pos hx, h2]
      · rw [if_neg hx, usGet, if_pos (by simp : x ∈ s ++ [x]), usGet,
            if_neg hx, zero_add]
    · subst hv
      rw [usInsert, if_pos rfl, add_zero]
      intro hzero
      rw [usGet] at hzero
      by_cases hx : x ∈ s
      · rw [if_pos hx] at hzero
        exact absurd hzero h10
      · rw [if_neg hx] at hzero
        exact fun h => hx h
    · subst hv
      rw [usInsert, if_neg h10]
      by_cases hx : x ∈ s
      · rw [if_pos hx]
        intro _
        exact not_mem_usErase hnd x
      · rw [if_neg hx, usGet, if_neg hx, zero_add]
        intro hzero
        exact absurd hzero h10

/-- Witness for C1 at concrete inputs (ℤ coefficients on ℕ cells for the
map-backed model, `ZMod 2` on ℕ cells for the set-backed model). -/
theorem c1_insert_invariant_witness :
    amGet (amInsert ([(1, 3)] : List (ℕ × ℤ)) 1 (-3)) 1 = amGet [(1, 3)] 1 + -3 ∧
    (1 : ℕ) ∉ usInsert ([1] : List ℕ) 1 (1 : ZMod 2) := by
  constructor
  · exact (c1_insert_invariant.1 ℕ ℤ [(1, 3)] 1 (-3)
      ⟨by decide, by decide⟩).1
  · exact (c1_insert_invariant.2 ℕ (ZMod 2) [1] 1 1 (by decide)
      (by decide) (by decide) (by decide)).2.1 (by decide)

/-! ## The cyclic ring `Z<p>`

`Z<p>::Z(int n)` computes its stored representative as
`n >= 0 ? n % p : n % p + p`, where C++ `%` on `int` truncates towards
zero (`Int.tmod`). -/

/-- The representative stored by the constructor `Z<p>(n)`. -/
def zval (p n : ℤ) : ℤ :=
  if n ≥ 0 then Int.tmod n p else Int.tmod n p + p

/-- C6 (code bug).  The claim (and the class's own documentation) says the
representative of `Z<p>(n)` is normalized into `[0, p-1]` and that two
instances compare equal iff their arguments are congruent mod `p`.  The
constructor violates this for negative multiples of `p`: `Z<5>(-5)`
stores `-5 % 5 + 5 = 5`, which lies outside `[0, 4]`, and in particular
`Z<5>(-5) != Z<5>(0)` (equality compares stored representatives) even
though `-5 ≡ 0 (mod 5)`. -/
theorem c6_zval_normalization_bug :
    zval 5 (-5) = 5 ∧ ¬(0 ≤ zval 5 (-5) ∧ zval 5 (-5) ≤ 4) ∧
    zval 5 (-5) ≠ zval 5 0 ∧ (-5 : ℤ) % 5 = (0 : ℤ) % 5 := by
  refine ⟨by decide, by decide, by decide, by decide⟩

/-! ## Scalar multiplication of chains

`operator*=(M& lhs, const RingType& rhs)` in
`src/chomp/chomp/algebra/algebra.hpp`: multiplication by zero clears the
chain wholesale; otherwise each entry receives
`insert(cell, (rhs - one) * lhs[cell])` while iterating over the cells.
Under the integral-domain assumption stated in the source comment, these
inserts never change the key set, so iterating over the original key
list (as the model below does) coincides with the C++ iteration over the
live container. -/

section ScalarMul

variable {T R : Type} [DecidableEq T] [DecidableEq R] [Ring R]

/-- `operator*=` on an associative-module chain. -/
def smulAssign (m : List (T × R)) (c : R) : List (T × R) :=
  if c = 0 then []
  else (amKeys m).foldl (fun acc cell => amInsert acc cell ((c - 1) * amGet acc cell)) m

theorem amGet_smul_step {acc : List (T × R)} (hacc : amValid acc)
    (c : R) (cell z : T) :
    amGet (amInsert acc cell ((c - 1) * amGet acc cell)) z =
      if z = cell then c * amGet acc cell else amGet acc z := by
  rw [amGet_amInsert hacc]
  by_cases hz : z = cell
  · subst hz
    rw [if_pos rfl, if_pos rfl]
    calc amGet acc z + (c - 1) * amGet acc z
        = (1 + (c - 1)) * amGet acc z := by rw [add_mul, one_mul]
      _ = c * amGet acc z := by rw [add_comm, sub_add_cancel]
  · rw [if_neg hz, if_neg hz, add_zero]

theorem amKeys_smul_step {acc : List (T × R)} (hacc : amValid acc)
    {c : R} (hc : c ≠ 0)
    (hnzd : ∀ a b : R, a * b = 0 → a = 0 ∨ b = 0) (cell : T) :
    amKeys (amInsert acc cell ((c - 1) * amGet acc cell)) = amKeys acc := by
  by_cases hv : (c - 1) * amGet acc cell = 0
  · rw [amInsert_zero hv]
  have hg : amGet acc cell ≠ 0 := by
    intro h
    rw [h, mul_zero] at hv
    exact hv rfl
  have hmem : cell ∈ amKeys acc := (mem_amKeys_iff hacc).mpr hg
  obtain ⟨r, hf, _⟩ := amFind_isSome_of_mem_keys hmem
  have hr : amGet acc cell = r := by rw [amGet, hf]; rfl
  have hsum : r + (c - 1) * amGet acc cell = c * r := by
    rw [hr]
    calc r + (c - 1) * r = (1 + (c - 1)) * r := by rw [add_mul, one_mul]
      _ = c * r := by rw [add_comm, sub_add_cancel]
  have hcr : c * r ≠ 0 := by
    intro h
    rcases hnzd _ _ h with h' | h'
    · exact hc h'
    · rw [hr] at hg
      exact hg h'
  rw [amInsert_of_find_some hv hf, if_neg (by rw [hsum]; exact hcr),
      amKeys_update]

theorem smulFold_spec {c : R} (hc : c ≠ 0)
    (hnzd : ∀ a b : R, a * b = 0 → a = 0 ∨ b = 0) :
    ∀ (ks : List T), ks.Nodup → ∀ (acc : List (T × R)), amValid acc →
      amValid (ks.foldl
          (fun acc cell => amInsert acc cell ((c - 1) * amGet acc cell)) acc) ∧
      amKeys (ks.foldl
          (fun acc cell => amInsert acc cell ((c - 1) * amGet acc cell)) acc) =
        amKeys acc ∧
      ∀ z, amGet (ks.foldl
          (fun acc cell => amInsert acc cell ((c - 1) * amGet acc cell)) acc) z =
        if z ∈ ks then c * amGet acc z else amGet acc z := by
  intro ks
  induction ks with
  | nil =>
    intro _ acc hacc
    refine ⟨hacc, rfl, fun z => ?_⟩
    simp
  | cons k rest ih =>
    intro hnd acc hacc
    have hcons := List.nodup_cons.mp hnd
    have hstep : amValid (amInsert acc k ((c - 1) * amGet acc k)) :=
      amValid_amInsert hacc _ _
    obtain ⟨hv, hk, hg⟩ := ih hcons.2 _ hstep
    refine ⟨hv, ?_, ?_⟩
    · rw [List.foldl_cons] at *
      rw [hk, amKeys_smul_step hacc hc hnzd]
    · intro z
      rw [List.foldl_cons, hg z, amGet_smul_step hacc]
      by_cases hz : z ∈ rest
      · have hzk : ¬z = k := fun h => hcons.1 (h ▸ hz)
        rw [if_pos hz, if_neg hzk, if_pos (List.mem_cons_of_mem _ hz)]
      · rw [if_neg hz]
        by_cases hzk : z = k
        · subst hzk
          rw [if_pos rfl, if_pos (List.mem_cons_self z rest)]
        · rw [if_neg hzk, if_neg (by
            intro h
            rcases List.mem_cons.mp h with h' | h'
            · exact hzk h'
            · exact hz h')]

/-- C7.  Scalar multiply-assign by the ring's zero clears the chain;
scalar multiply-assign by a nonzero `c` (over an integral domain, as the
source assumes) keeps the key set identical and rewrites every
coefficient to `c` times its previous value. -/
theorem c7_scalar_mul_assign :
    ∀ (T R : Type) [DecidableEq T] [DecidableEq R] [Ring R]
      (m : List (T × R)) (c : R), amValid m →
    (c = 0 → smulAssign m c = []) ∧
    (c ≠ 0 → (∀ a b : R, a * b = 0 → a = 0 ∨ b = 0) →
      amKeys (smulAssign m c) = amKeys m ∧
      ∀ x, amGet (smulAssign m c) x = c * amGet m x) := by
  intro T R _ _ _ m c hm
  constructor
  · intro hc
    rw [smulAssign, if_pos hc]
  · intro hc hnzd
    rw [smulAssign, if_neg hc]
    obtain ⟨_, hk, hg⟩ := smulFold_spec hc hnzd (amKeys m) hm.1 m hm
    refine ⟨hk, fun x => ?_⟩
    rw [hg x]
    by_cases hx : x ∈ amKeys m
    · rw [if_pos hx]
    · rw [if_neg hx, amGet_eq_zero_of_not_mem hx, mul_zero]

/-- Witness for C7 with ℤ coefficients on ℕ cells. -/
theorem c7_scalar_mul_assign_witness :
    smulAssign ([(2, 7)] : List (ℕ × ℤ)) 0 = [] ∧
    amGet (smulAssign ([(2, 7)] : List (ℕ × ℤ)) 3) 2 = 3 * amGet [(2, 7)] 2 := by
  have h := c7_scalar_mul_assign ℕ ℤ [(2, 7)] 0 ⟨by decide, by decide⟩
  have h3 := c7_scalar_mul_assign ℕ ℤ [(2, 7)] 3 ⟨by decide, by decide⟩
  exact ⟨h.1 rfl, (h3.2 (by decide) (fun a b hab => mul_eq_zero.mp hab)).2 2⟩

end ScalarMul

/-! ## Claim C8: set-backed and map-backed chains are observationally equal

Over a binary (two-element) ring, a chain may be stored either as a map
(`AssociativeModule`) or as a bare set (`UniqueModule`).  Starting from
the default (empty) state and applying the same sequence of `insert` /
`clear` operations, the two representations agree on `operator[]` at
every cell and iterate over the same set of cells. -/

section OpsEquiv

variable {T R : Type} [DecidableEq T] [DecidableEq R] [Ring R]

/-- One mutating chain operation of the public interface. -/
inductive ChainOp (T R : Type) where
  | ins : T → R → ChainOp T R
  | clr : ChainOp T R

/-- Run a sequence of operations on a map-backed chain. -/
def amApply (m : List (T × R)) : ChainOp T R → List (T × R)
  | ChainOp.ins x v => amInsert m x v
  | ChainOp.clr => []

/-- Run a sequence of operations on a set-backed chain. -/
def usApply (s : List T) : ChainOp T R → List T
  | ChainOp.ins x v => usInsert s x v
  | ChainOp.clr => []

def amRun (ops : List (ChainOp T R)) : List (T × R) :=
  ops.foldl amApply []

def usRun (ops : List (ChainOp T R)) : List T :=
  ops.foldl usApply []

/-- The refinement relation: the set is exactly the key list of the map,
the map is well formed, and (over a two-element ring) every stored
coefficient is `one`. -/
def chainRel (m : List (T × R)) (s : List T) : Prop :=
  amValid m ∧ amKeys m = s ∧ ∀ p ∈ m, p.2 = (1 : R)

theorem amKeys_amErase (m : List (T × R)) (x : T) :
    amKeys (amErase m x) = usErase (amKeys m) x := by
  induction m with
  | nil => rfl
  | cons p rest ih =>
    by_cases hp : p.1 = x
    · rw [amErase, if_pos hp]
      show amKeys rest = usErase (p.1 :: amKeys rest) x
      rw [usErase, if_pos hp]
    · rw [amErase, if_neg hp]
      show p.1 :: amKeys (amErase rest x) = usErase (p.1 :: amKeys rest) x
      rw [usErase, if_neg hp, ih]

theorem chainRel_step (h2 : (1 : R) + 1 = 0) (h10 : (1 : R) ≠ 0)
    (htwo : ∀ w : R, w = 0 ∨ w = 1)
    {m : List (T × R)} {s : List T} (h : chainRel m s) (op : ChainOp T R) :
    chainRel (amApply m op) (usApply s op) := by
  obtain ⟨hm, hk, hone⟩ := h
  cases op with
  | clr =>
    show chainRel ([] : List (T × R)) ([] : List T)
    exact ⟨⟨List.nodup_nil, by simp⟩, rfl, by simp⟩
  | ins x v =>
    show chainRel (amInsert m x v) (usInsert s x v)
    rcases htwo v with hv | hv
    · subst hv
      rw [amInsert_zero rfl, usInsert, if_pos rfl]
      exact ⟨hm, hk, hone⟩
    · subst hv
      rw [usInsert, if_neg h10]
      by_cases hx : x ∈ s
      · rw [if_pos hx]
        rw [← hk] at hx
        obtain ⟨r, hf, hrm⟩ := amFind_isSome_of_mem_keys hx
        have hr1 : r = 1 := hone _ hrm
        rw [amInsert_of_find_some h10 hf, if_pos (by rw [hr1, h2])]
        refine ⟨⟨?_, ?_⟩, ?_, ?_⟩
        · exact (amKeys_erase_sublist m x).nodup hm.1
        · exact fun p hp => hm.2 _ (amErase_subset hp)
        · rw [amKeys_amErase, hk]
        · exact fun p hp => hone _ (amErase_subset hp)
      · rw [if_neg hx]
        rw [← hk] at hx
        rw [amInsert_of_find_none h10 (amFind_eq_none.mpr hx)]
        refine ⟨⟨?_, ?_⟩, ?_, ?_⟩
        · rw [amKeys_append, List.nodup_append]
          refine ⟨hm.1, List.nodup_singleton x, ?_⟩
          intro a ha hb
          have hax : a = x := by simpa [amKeys] using hb
          subst hax
          exact hx ha
        · intro p hp
          rcases List.mem_append.mp hp with h' | h'
          · exact hm.2 _ h'
          · have : p = (x, (1 : R)) := by simpa using h'
            rw [this]
            exact h10
        · rw [amKeys_append, hk]
          rfl
        · intro p hp
          rcases List.mem_append.mp hp with h' | h'
          · exact hone _ h'
          · have : p = (x, (1 : R)) := by simpa using h'
            rw [this]

theorem chainRel_run (h2 : (1 : R) + 1 = 0) (h10 : (1 : R) ≠ 0)
    (htwo : ∀ w : R, w = 0 ∨ w = 1) (ops : List (ChainOp T R)) :
    chainRel (amRun ops) (usRun ops) := by
  rw [amRun, usRun]
  have hbase : chainRel ([] : List (T × R)) ([] : List T) :=
    ⟨⟨List.nodup_nil, by simp⟩, rfl, by simp⟩
  revert hbase
  generalize ([] : List (T × R)) = m0
  generalize ([] : List T) = s0
  revert m0 s0
  induction ops with
  | nil => intro m0 s0 h; exact h
  | cons op rest ih =>
    intro m0 s0 h
    rw [List.foldl_cons, List.foldl_cons]
    exact ih _ _ (chainRel_step h2 h10 htwo h op)

theorem chainRel_get {m : List (T × R)} {s : List T} (h : chainRel m s)
    (x : T) : amGet m x = usGet s x := by
  obtain ⟨hm, hk, hone⟩ := h
  by_cases hx : x ∈ s
  · rw [usGet, if_pos hx, ← hk] at *
    obtain ⟨r, hf, hrm⟩ := amFind_isSome_of_mem_keys hx
    rw [amGet, hf]
    show r = 1
    exact hone _ hrm
  · rw [usGet, if_neg hx, ← hk] at *
    exact amGet_eq_zero_of_not_mem hx

/-- C8.  Over a binary two-element ring, starting from empty chains and
applying any identical sequence of `insert` and `clear` operations to a
map-backed and a set-backed chain, `operator[]` agrees on every cell and
iteration visits the same set of cells. -/
theorem c8_representation_equivalence :
    ∀ (T R : Type) [DecidableEq T] [DecidableEq R] [Ring R],
      (1 : R) + 1 = 0 → (1 : R) ≠ 0 → (∀ w : R, w = 0 ∨ w = 1) →
      ∀ ops : List (ChainOp T R),
        (∀ x, amGet (amRun ops) x = usGet (usRun ops) x) ∧
        (∀ x, x ∈ amKeys (amRun ops) ↔ x ∈ usRun ops) := by
  intro T R _ _ _ h2 h10 htwo ops
  have h := chainRel_run h2 h10 htwo ops
  exact ⟨fun x => chainRel_get h x, fun x => by rw [h.2.1]⟩

/-- Witness for C8 over `ZMod 2` on ℕ cells. -/
theorem c8_representation_equivalence_witness :
    amGet (amRun [ChainOp.ins 4 (1 : ZMod 2), ChainOp.ins 4 1, ChainOp.ins 7 1])
        4 =
      usGet (usRun [ChainOp.ins 4 (1 : ZMod 2), ChainOp.ins 4 1,
        ChainOp.ins 7 1]) 4 :=
  (c8_representation_equivalence ℕ (ZMod 2) (by decide) (by decide) (by decide)
    [ChainOp.ins 4 1, ChainOp.ins 4 1, ChainOp.ins 7 1]).1 4

end OpsEquiv

/-! ## The LRU cache

`LRUCache` (`src/chomp/chomp/util/cache.hpp`) keeps a doubly-linked list
of (key, value) pairs ordered by recency (front = most recent) together
with a map from keys into the list.  The model keeps just the list; the
map is its key projection.  `operator[]` on a hit splices the node to
the front; on a miss it pushes a freshly constructed entry to the front
and, if the size now exceeds the capacity, pops the back entry. -/

section LRU

variable {K V : Type} [DecidableEq K]

/-- `cache_map.find(key)` (value retrieved through the list node). -/
def cacheFind : List (K × V) → K → Option V
  | [], _ => none
  | p :: rest, k => if p.1 = k then some p.2 else cacheFind rest k

/-- Removal of the unique list node with key `k`. -/
def cacheEraseKey : List (K × V) → K → List (K × V)
  | [], _ => []
  | p :: rest, k => if p.1 = k then rest else p :: cacheEraseKey rest k

/-- The key set of the cache, most recent first. -/
def cacheKeys (st : List (K × V)) : List K :=
  st.map Prod.fst

/-- `LRUCache::operator[]`: hit → splice the node to the front and return
its value; miss → construct the value, push the entry to the front and
pop the back entry if the size now exceeds the capacity.  Returns the
value together with the new cache state. -/
def cacheAccess (f : K → V) (maxSize : ℕ) (st : List (K × V)) (k : K) :
    V × List (K × V) :=
  match cacheFind st k with
  | none =>
    let st1 := (k, f k) :: st
    if st1.length > maxSize then (f k, st1.dropLast) else (f k, st1)
  | some v => (v, (k, v) :: cacheEraseKey st k)

/-- The cache state after a sequence of accesses starting from empty. -/
def cacheRun (f : K → V) (maxSize : ℕ) (ks : List K) : List (K × V) :=
  ks.foldl (fun st k => (cacheAccess f maxSize st k).2) []

/-- The distinct keys of an access sequence ordered by most recent
access first (the recency order an unbounded LRU list would keep). -/
def mruOrder (ks : List K) : List K :=
  ks.foldl (fun acc k => k :: usErase acc k) []

theorem cacheFind_eq_none {st : List (K × V)} {k : K} :
    cacheFind st k = none ↔ k ∉ cacheKeys st := by
  induction st with
  | nil => simp [cacheFind, cacheKeys]
  | cons p rest ih =>
    by_cases h : p.1 = k
    · subst h
      simp [cacheFind, cacheKeys]
    · rw [cacheFind, if_neg h, ih]
      simp only [cacheKeys, List.map_cons, List.mem_cons]
      constructor
      · intro hn hmem
        rcases hmem with he | hm
        · exact h he.symm
        · exact hn hm
      · intro hn hm
        exact hn (Or.inr hm)

theorem cacheKeys_eraseKey (st : List (K × V)) (k : K) :
    cacheKeys (cacheEraseKey st k) = usErase (cacheKeys st) k := by
  induction st with
  | nil => rfl
  | cons p rest ih =>
    by_cases hp : p.1 = k
    · rw [cacheEraseKey, if_pos hp]
      show cacheKeys rest = usErase (p.1 :: cacheKeys rest) k
      rw [usErase, if_pos hp]
    · rw [cacheEraseKey, if_neg hp]
      show p.1 :: cacheKeys (cacheEraseKey rest k) = usErase (p.1 :: cacheKeys rest) k
      rw [usErase, if_neg hp, ih]

theorem usErase_of_not_mem {l : List K} {k : K} (h : k ∉ l) :
    usErase l k = l := by
  induction l with
  | nil => rfl
  | cons a rest ih =>
    have ha : ¬a = k := fun hc => h (hc ▸ List.mem_cons_self a rest)
    rw [usErase, if_neg ha, ih (fun hm => h (List.mem_cons_of_mem _ hm))]

theorem take_usErase_of_mem {l : List K} {k : K} {m : ℕ}
    (h : k ∈ l.take (m + 1)) :
    usErase (l.take (m + 1)) k = (usErase l k).take m := by
  induction l generalizing m with
  | nil => simp at h
  | cons a rest ih =>
    rw [List.take_succ_cons] at h ⊢
    by_cases ha : a = k
    · rw [usErase, if_pos ha, usErase, if_pos ha]
    · rw [usErase, if_neg ha, usErase, if_neg ha]
      have hk : k ∈ rest.take m := by
        rcases List.mem_cons.mp h with h' | h'
        · exact absurd h'.symm ha
        · exact h'
      cases m with
      | zero => simp at hk
      | succ m'' =>
        rw [List.take_succ_cons, ih hk]

theorem take_usErase_of_not_mem {l : List K} {k : K} {m : ℕ}
    (h : k ∉ l.take (m + 1)) :
    (usErase l k).take m = l.take m := by
  induction l generalizing m with
  | nil => rfl
  | cons a rest ih =>
    rw [List.take_succ_cons] at h
    have ha : ¬a = k := fun hc => h (hc ▸ List.mem_cons_self a _)
    rw [usErase, if_neg ha]
    cases m with
    | zero => rfl
    | succ m' =>
      rw [List.take_succ_cons, List.take_succ_cons,
          ih (fun hm => h (List.mem_cons_of_mem _ hm))]

theorem mruOrder_step_nodup {acc : List K} (hnd : acc.Nodup) (k : K) :
    (k :: usErase acc k).Nodup :=
  List.nodup_cons.mpr ⟨not_mem_usErase hnd k, (usErase_sublist acc k).nodup hnd⟩

theorem cacheAccess_hit {f : K → V} {m : ℕ} {st : List (K × V)} {k : K}
    {v : V} (hf : cacheFind st k = some v) :
    cacheAccess f m st k = (v, (k, v) :: cacheEraseKey st k) := by
  rw [cacheAccess, hf]

theorem cacheAccess_miss_evict {f : K → V} {m : ℕ} {st : List (K × V)}
    {k : K} (hf : cacheFind st k = none)
    (hlen : ((k, f k) :: st).length > m) :
    cacheAccess f m st k = (f k, ((k, f k) :: st).dropLast) := by
  simp only [cacheAccess, hf]
  rw [if_pos hlen]

theorem cacheAccess_miss_fits {f : K → V} {m : ℕ} {st : List (K × V)}
    {k : K} (hf : cacheFind st k = none)
    (hlen : ¬((k, f k) :: st).length > m) :
    cacheAccess f m st k = (f k, (k, f k) :: st) := by
  simp only [cacheAccess, hf]
  rw [if_neg hlen]

/-- One `operator[]` access preserves the relationship between the cache
key list and the (unbounded) recency order. -/
theorem cacheStep_keys (f : K → V) {m' : ℕ} {st : List (K × V)}
    {acc : List K} (hkeys : cacheKeys st = acc.take (m' + 1)) (k : K) :
    cacheKeys (cacheAccess f (m' + 1) st k).2 =
      (k :: usErase acc k).take (m' + 1) := by
  have hlenkeys : st.length = (acc.take (m' + 1)).length := by
    have := congrArg List.length hkeys
    rwa [cacheKeys, List.length_map] at this
  rw [List.take_succ_cons]
  cases hf : cacheFind st k with
  | some v =>
    have hkmem : k ∈ acc.take (m' + 1) := by
      rw [← hkeys]
      by_contra hk
      rw [cacheFind_eq_none.mpr hk] at hf
      exact Option.noConfusion hf
    rw [cacheAccess_hit hf]
    show k :: cacheKeys (cacheEraseKey st k) = _
    rw [cacheKeys_eraseKey, hkeys, take_usErase_of_mem hkmem]
  | none =>
    have hkmem : k ∉ acc.take (m' + 1) := by
      rw [← hkeys]
      exact cacheFind_eq_none.mp hf
    by_cases hlen : ((k, f k) :: st).length > m' + 1
    · rw [cacheAccess_miss_evict hf hlen]
      have hstlen : st.length = m' + 1 := by
        rw [List.length_take] at hlenkeys
        simp only [List.length_cons] at hlen
        omega
      have hstne : st ≠ [] := by
        intro hc
        rw [hc] at hstlen
        simp at hstlen
      have hkne : cacheKeys st ≠ [] := by
        intro hc
        rw [cacheKeys] at hc
        exact hstne (List.map_eq_nil_iff.mp hc)
      show cacheKeys (((k, f k) :: st).dropLast) = _
      rw [List.dropLast_cons_of_ne_nil hstne]
      show k :: cacheKeys st.dropLast = _
      rw [show cacheKeys st.dropLast = (cacheKeys st).dropLast from
            (List.map_dropLast _ _), hkeys]
      have hacclen : m' + 1 ≤ acc.length := by
        rw [List.length_take] at hlenkeys
        omega
      rw [List.dropLast_eq_take, List.length_take, min_eq_left hacclen,
          List.take_take, take_usErase_of_not_mem hkmem, Nat.add_sub_cancel,
          inf_eq_left.mpr (Nat.le_succ m')]
    · rw [cacheAccess_miss_fits hf hlen]
      have hstlt : st.length < m' + 1 := by
        simp only [List.length_cons] at hlen
        omega
      have haccle : acc.length ≤ m' := by
        rw [List.length_take] at hlenkeys
        omega
      have hacc : acc.take (m' + 1) = acc :=
        List.take_of_length_le (by omega)
      rw [hacc] at hkeys hkmem
      show k :: cacheKeys st = _
      rw [hkeys, usErase_of_not_mem hkmem, List.take_of_length_le haccle]

/-- The central LRU invariant: after any access sequence, the keys held
by a capacity-`m` cache (most recent first) are exactly the first `m`
entries of the recency order of the whole sequence. -/
theorem cacheRun_keys_invariant (f : K → V) {m : ℕ} (hm : 1 ≤ m) :
    ∀ (ks : List K) (st : List (K × V)) (acc : List K),
      cacheKeys st = acc.take m → acc.Nodup →
      cacheKeys (ks.foldl (fun st k => (cacheAccess f m st k).2) st) =
        (ks.foldl (fun acc k => k :: usErase acc k) acc).take m ∧
      (ks.foldl (fun acc k => k :: usErase acc k) acc).Nodup := by
  obtain ⟨m', rfl⟩ : ∃ m', m = m' + 1 := ⟨m - 1, by omega⟩
  intro ks
  induction ks with
  | nil => intro st acc hkeys hnd; exact ⟨hkeys, hnd⟩
  | cons k rest ih =>
    intro st acc hkeys hnd
    rw [List.foldl_cons, List.foldl_cons]
    exact ih _ _ (cacheStep_keys f hkeys k) (mruOrder_step_nodup hnd k)

/-- A miss on a full cache evicts exactly the back (least recently used)
entry: the key list becomes the new key followed by all previous keys
except the last. -/
theorem cacheAccess_evicts_back (f : K → V) {m : ℕ} (hm : 1 ≤ m)
    {st : List (K × V)} (k : K) (hk : k ∉ cacheKeys st)
    (hlen : st.length = m) :
    cacheKeys (cacheAccess f m st k).2 = k :: (cacheKeys st).dropLast := by
  have hf := cacheFind_eq_none.mpr hk
  have hgt : ((k, f k) :: st).length > m := by
    simp only [List.length_cons, hlen]
    omega
  rw [cacheAccess_miss_evict hf hgt]
  have hstne : st ≠ [] := by
    intro hc
    rw [hc] at hlen
    simp at hlen
    omega
  show cacheKeys (((k, f k) :: st).dropLast) = _
  rw [List.dropLast_cons_of_ne_nil hstne]
  show k :: cacheKeys st.dropLast = _
  rw [show cacheKeys st.dropLast = (cacheKeys st).dropLast from
        List.map_dropLast _ _]

end LRU

/-! ## Claims C9 and C10: LRU cache behaviour -/

/-- C9.  For a cache of capacity `m ≥ 1` and any access sequence: the
size never exceeds `m`; a key is contained exactly when it is among the
`m` most recently accessed distinct keys (`mruOrder` lists the distinct
keys by most recent access, and a hit renews recency); and an access
with an absent key on a full cache removes precisely the back —
least-recently-used — entry. -/
theorem c9_lru_capacity_and_eviction :
    ∀ (K V : Type) [DecidableEq K] (f : K → V) (m : ℕ), 1 ≤ m →
      ∀ ks : List K,
        (cacheRun f m ks).length ≤ m ∧
        (∀ k, k ∈ cacheKeys (cacheRun f m ks) ↔ k ∈ (mruOrder ks).take m) ∧
        (∀ k, k ∉ cacheKeys (cacheRun f m ks) → (cacheRun f m ks).length = m →
          cacheKeys (cacheAccess f m (cacheRun f m ks) k).2 =
            k :: (cacheKeys (cacheRun f m ks)).dropLast) := by
  intro K V _ f m hm ks
  have h := cacheRun_keys_invariant f hm ks [] []
    (by simp [cacheKeys]) List.nodup_nil
  have hkeys : cacheKeys (cacheRun f m ks) = (mruOrder ks).take m := by
    rw [cacheRun, mruOrder]
    exact h.1
  refine ⟨?_, ?_, ?_⟩
  · have : (cacheRun f m ks).length = (cacheKeys (cacheRun f m ks)).length :=
      (List.length_map _ _).symm
    rw [this, hkeys, List.length_take]
    omega
  · intro k
    rw [hkeys]
  · intro k hk hfull
    exact cacheAccess_evicts_back f hm k hk hfull

/-- Witness for C9: capacity-1 cache on ℕ keys, accesses `[1, 2]`. -/
theorem c9_lru_capacity_and_eviction_witness :
    (cacheRun (fun n : ℕ => n) 1 [1, 2]).length ≤ 1 ∧
    ((2 : ℕ) ∈ cacheKeys (cacheRun (fun n : ℕ => n) 1 [1, 2]) ↔
      2 ∈ (mruOrder [1, 2]).take 1) := by
  have h := c9_lru_capacity_and_eviction ℕ ℕ (fun n => n) 1 (by decide) [1, 2]
  exact ⟨h.1, h.2.1 2⟩

/-- C10.  For a cache of capacity `m ≥ 1`, an `operator[]` access for any
key `k` leaves `k` in the cache at return (the eviction on a miss never
removes the just-inserted entry), the returned value is the value the
cache then holds for `k`, and on a miss the returned value is the result
of the cache's value-construction function at `k`. -/
theorem c10_lru_access_presence :
    ∀ (K V : Type) [DecidableEq K] (f : K → V) (m : ℕ), 1 ≤ m →
      ∀ (st : List (K × V)) (k : K),
        k ∈ cacheKeys (cacheAccess f m st k).2 ∧
        cacheFind (cacheAccess f m st k).2 k = some (cacheAccess f m st k).1 ∧
        (k ∉ cacheKeys st → (cacheAccess f m st k).1 = f k) := by
  intro K V _ f m hm st k
  cases hf : cacheFind st k with
  | some v =>
    rw [cacheAccess_hit hf]
    refine ⟨?_, ?_, ?_⟩
    · show k ∈ k :: cacheKeys (cacheEraseKey st k)
      exact List.mem_cons_self _ _
    · show cacheFind ((k, v) :: cacheEraseKey st k) k = some v
      rw [cacheFind, if_pos rfl]
    · intro hk
      rw [cacheFind_eq_none.mpr hk] at hf
      exact Option.noConfusion hf
  | none =>
    by_cases hlen : ((k, f k) :: st).length > m
    · rw [cacheAccess_miss_evict hf hlen]
      have hstne : st ≠ [] := by
        intro hc
        rw [hc] at hlen
        simp at hlen
        omega
      refine ⟨?_, ?_, fun _ => rfl⟩
      · show k ∈ cacheKeys (((k, f k) :: st).dropLast)
        rw [List.dropLast_cons_of_ne_nil hstne]
        exact List.mem_cons_self _ _
      · show cacheFind (((k, f k) :: st).dropLast) k = some (f k)
        rw [List.dropLast_cons_of_ne_nil hstne, cacheFind, if_pos rfl]
    · rw [cacheAccess_miss_fits hf hlen]
      refine ⟨List.mem_cons_self _ _, ?_, fun _ => rfl⟩
      show cacheFind ((k, f k) :: st) k = some (f k)
      rw [cacheFind, if_pos rfl]

/-- Witness for C10: a miss on the empty capacity-1 cache. -/
theorem c10_lru_access_presence_witness :
    (0 : ℕ) ∈ cacheKeys (cacheAccess (fun n : ℕ => n + 1) 1 [] 0).2 :=
  (c10_lru_access_presence ℕ ℕ (fun n => n + 1) 1 (by decide) [] 0).1

/-! ## Bit arithmetic on extents

The extent of a `Cube` is a `std::size_t` bitmask.  The boundary
operator clears a set bit via `cube_extent - axis_bit` and the
coboundary operator sets a clear bit via `cube_extent + axis_bit`;
these lemmas describe the effect on the individual bits. -/

theorem testBit_eq_mod_of_lt {x a j : ℕ} (hj : j < a) :
    x.testBit j = (x % 2 ^ a).testBit j := by
  rw [Nat.testBit_mod_two_pow, decide_eq_true hj, Bool.true_and]

theorem testBit_eq_div_of_le {x a j : ℕ} (hj : a ≤ j) :
    x.testBit j = (x / 2 ^ a).testBit (j - a) := by
  rw [← Nat.shiftRight_eq_div_pow, Nat.testBit_shiftRight]
  congr 1
  omega

/-- Clearing a set bit: `e - 2 ^ a` clears bit `a` and leaves every
other bit of `e` unchanged. -/
theorem testBit_sub_pow {e a : ℕ} (h : e.testBit a = true) (j : ℕ) :
    (e - 2 ^ a).testBit j = (decide (j ≠ a) && e.testBit j) := by
  have hpa : 0 < 2 ^ a := Nat.two_pow_pos a
  have hq : e / 2 ^ a % 2 = 1 := of_decide_eq_true (Nat.testBit_to_div_mod ▸ h)
  have he := Nat.div_add_mod e (2 ^ a)
  have hr : e % 2 ^ a < 2 ^ a := Nat.mod_lt _ hpa
  have hmul : 2 ^ a * (e / 2 ^ a - 1) = 2 ^ a * (e / 2 ^ a) - 2 ^ a := by
    rw [Nat.mul_sub, Nat.mul_one]
  have hq1 : 1 ≤ e / 2 ^ a := by
    generalize e / 2 ^ a = q at hq
    omega
  have hle : 2 ^ a ≤ 2 ^ a * (e / 2 ^ a) :=
    le_mul_of_one_le_right (Nat.zero_le _) hq1
  have hsub : e - 2 ^ a = 2 ^ a * (e / 2 ^ a - 1) + e % 2 ^ a := by
    rw [hmul]
    generalize 2 ^ a * (e / 2 ^ a) = X at he hle ⊢
    omega
  have hsubdiv : (e - 2 ^ a) / 2 ^ a = e / 2 ^ a - 1 := by
    rw [hsub, Nat.mul_add_div hpa, Nat.div_eq_of_lt hr, Nat.add_zero]
  have hsubmod : (e - 2 ^ a) % 2 ^ a = e % 2 ^ a := by
    rw [hsub, Nat.mul_add_mod, Nat.mod_eq_of_lt hr]
  rcases lt_trichotomy j a with hj | hj | hj
  · rw [decide_eq_true (Nat.ne_of_lt hj), Bool.true_and,
        testBit_eq_mod_of_lt hj, testBit_eq_mod_of_lt hj (x := e), hsubmod]
  · subst hj
    rw [decide_eq_false (by simp : ¬j ≠ j), Bool.false_and,
        testBit_eq_div_of_le (Nat.le_refl j), hsubdiv, Nat.sub_self,
        Nat.testBit_zero]
    apply decide_eq_false
    omega
  · rw [decide_eq_true (Nat.ne_of_gt hj), Bool.true_and,
        testBit_eq_div_of_le (Nat.le_of_lt hj),
        testBit_eq_div_of_le (Nat.le_of_lt hj) (x := e), hsubdiv]
    obtain ⟨i, hi⟩ : ∃ i, j - a = i + 1 := ⟨j - a - 1, by omega⟩
    rw [hi, Nat.testBit_add_one, Nat.testBit_add_one]
    congr 1
    generalize e / 2 ^ a = q at hq ⊢
    omega

/-- Setting a clear bit: `e + 2 ^ a` sets bit `a` and leaves every other
bit of `e` unchanged. -/
theorem testBit_add_pow {e a : ℕ} (h : e.testBit a = false) (j : ℕ) :
    (e + 2 ^ a).testBit j = (decide (j = a) || e.testBit j) := by
  have hpa : 0 < 2 ^ a := Nat.two_pow_pos a
  have hq : e / 2 ^ a % 2 ≠ 1 := by
    intro hc
    rw [Nat.testBit_to_div_mod, decide_eq_true hc] at h
    exact Bool.noConfusion h
  have he := Nat.div_add_mod e (2 ^ a)
  have hr : e % 2 ^ a < 2 ^ a := Nat.mod_lt _ hpa
  have hadd : e + 2 ^ a = 2 ^ a * (e / 2 ^ a + 1) + e % 2 ^ a := by
    rw [Nat.mul_add, Nat.mul_one]
    omega
  have hadddiv : (e + 2 ^ a) / 2 ^ a = e / 2 ^ a + 1 := by
    rw [hadd, Nat.mul_add_div hpa, Nat.div_eq_of_lt hr, Nat.add_zero]
  have haddmod : (e + 2 ^ a) % 2 ^ a = e % 2 ^ a := by
    rw [hadd, Nat.mul_add_mod, Nat.mod_eq_of_lt hr]
  rcases lt_trichotomy j a with hj | hj | hj
  · rw [decide_eq_false (Nat.ne_of_lt hj), Bool.false_or,
        testBit_eq_mod_of_lt hj, testBit_eq_mod_of_lt hj (x := e), haddmod]
  · subst hj
    rw [decide_eq_true rfl, Bool.true_or,
        testBit_eq_div_of_le (Nat.le_refl j), hadddiv, Nat.sub_self,
        Nat.testBit_zero]
    apply decide_eq_true
    omega
  · rw [decide_eq_false (Nat.ne_of_gt hj), Bool.false_or,
        testBit_eq_div_of_le (Nat.le_of_lt hj),
        testBit_eq_div_of_le (Nat.le_of_lt hj) (x := e), hadddiv]
    obtain ⟨i, hi⟩ : ∃ i, j - a = i + 1 := ⟨j - a - 1, by omega⟩
    rw [hi, Nat.testBit_add_one, Nat.testBit_add_one]
    congr 1
    generalize e / 2 ^ a = q at hq ⊢
    omega

/-- The number of set bits of `e` strictly below position `a`; the
running coefficient of the boundary loop at axis `a` is `(-1)` to this
power. -/
def pbelow (e a : ℕ) : ℕ :=
  ((Finset.range a).filter (fun j => e.testBit j = true)).card

theorem pbelow_zero (e : ℕ) : pbelow e 0 = 0 := by
  rw [pbelow, Finset.range_zero, Finset.filter_empty, Finset.card_empty]

theorem pbelow_succ (e s : ℕ) :
    pbelow e (s + 1) = pbelow e s + (if e.testBit s = true then 1 else 0) := by
  rw [pbelow, pbelow, Finset.range_succ, Finset.filter_insert]
  by_cases h : e.testBit s = true
  · rw [if_pos h, if_pos h,
        Finset.card_insert_of_not_mem (by simp)]
  · rw [if_neg h, if_neg h, Nat.add_zero]

theorem pbelow_sub_pow_lt {e a b : ℕ} (ha : e.testBit a = true)
    (hab : a < b) : pbelow e b = pbelow (e - 2 ^ a) b + 1 := by
  have hset : (Finset.range b).filter (fun j => (e - 2 ^ a).testBit j = true) =
      ((Finset.range b).filter (fun j => e.testBit j = true)).erase a := by
    ext j
    simp only [Finset.mem_filter, Finset.mem_erase, Finset.mem_range,
      testBit_sub_pow ha, Bool.and_eq_true, decide_eq_true_eq]
    tauto
  have hmem : a ∈ (Finset.range b).filter (fun j => e.testBit j = true) := by
    simp only [Finset.mem_filter, Finset.mem_range]
    exact ⟨hab, ha⟩
  rw [pbelow, pbelow, hset, Finset.card_erase_of_mem hmem,
      Nat.sub_add_cancel (Finset.card_pos.mpr ⟨a, hmem⟩)]

theorem pbelow_sub_pow_ge {e a b : ℕ} (ha : e.testBit a = true)
    (hab : b ≤ a) : pbelow (e - 2 ^ a) b = pbelow e b := by
  rw [pbelow, pbelow]
  congr 1
  apply Finset.filter_congr
  intro j hj
  rw [Finset.mem_range] at hj
  simp only [testBit_sub_pow ha, Bool.and_eq_true, decide_eq_true_eq]
  have : j ≠ a := by omega
  tauto

theorem pbelow_add_pow_lt {e a b : ℕ} (ha : e.testBit a = false)
    (hab : a < b) : pbelow (e + 2 ^ a) b = pbelow e b + 1 := by
  have hset : (Finset.range b).filter (fun j => (e + 2 ^ a).testBit j = true) =
      insert a ((Finset.range b).filter (fun j => e.testBit j = true)) := by
    ext j
    simp only [Finset.mem_filter, Finset.mem_insert, Finset.mem_range,
      testBit_add_pow ha, Bool.or_eq_true, decide_eq_true_eq]
    constructor
    · rintro ⟨hjb, hj | hj⟩
      · exact Or.inl hj
      · exact Or.inr ⟨hjb, hj⟩
    · rintro (hj | ⟨hjb, hj⟩)
      · exact ⟨hj ▸ hab, Or.inl hj⟩
      · exact ⟨hjb, Or.inr hj⟩
  have hnotmem : a ∉ (Finset.range b).filter (fun j => e.testBit j = true) := by
    simp only [Finset.mem_filter, Finset.mem_range]
    rintro ⟨_, hc⟩
    rw [ha] at hc
    exact Bool.noConfusion hc
  rw [pbelow, pbelow, hset, Finset.card_insert_of_not_mem hnotmem,
      Nat.add_comm]

theorem pbelow_add_pow_ge {e a b : ℕ} (ha : e.testBit a = false)
    (hab : b ≤ a) : pbelow (e + 2 ^ a) b = pbelow e b := by
  rw [pbelow, pbelow]
  congr 1
  apply Finset.filter_congr
  intro j hj
  rw [Finset.mem_range] at hj
  simp only [testBit_add_pow ha, Bool.or_eq_true, decide_eq_true_eq]
  have : j ≠ a := by omega
  tauto

/-! ## Linear map application

`linear_apply` (`src/chomp/chomp/algebra/algebra.hpp`): for every basis
element `cell` of `elem` (iterated through the chain's keys), multiply
each (basis, coefficient) pair produced by `func cell` by `elem[cell]`
on the left and insert it into a fresh result chain. -/

section LinearApply

variable {T R : Type} [DecidableEq T] [DecidableEq R] [Ring R]

/-- `linear_apply(elem, func)`. -/
def linearApply (elem : List (T × R)) (func : T → List (T × R)) :
    List (T × R) :=
  (amKeys elem).foldl
    (fun result cell =>
      (func cell).foldl
        (fun res p => amInsert res p.1 (amGet elem cell * p.2)) result)
    []

theorem pairFold_valid (γ : R) (w : List (T × R)) :
    ∀ (acc : List (T × R)), amValid acc →
      amValid (w.foldl (fun res p => amInsert res p.1 (γ * p.2)) acc) := by
  induction w with
  | nil => intro acc h; exact h
  | cons p rest ih =>
    intro acc h
    rw [List.foldl_cons]
    exact ih _ (amValid_amInsert h _ _)

theorem amGet_pairFold (γ : R) (z : T) (w : List (T × R)) :
    ∀ (acc : List (T × R)), amValid acc →
      amGet (w.foldl (fun res p => amInsert res p.1 (γ * p.2)) acc) z =
        amGet acc z +
          (w.map (fun p => if z = p.1 then γ * p.2 else 0)).sum := by
  induction w with
  | nil =>
    intro acc h
    rw [List.foldl_nil, List.map_nil, List.sum_nil, add_zero]
  | cons p rest ih =>
    intro acc h
    rw [List.foldl_cons, ih _ (amValid_amInsert h _ _), amGet_amInsert h,
        List.map_cons, List.sum_cons, add_assoc]

theorem sum_map_ite_zero (γ : R) {w : List (T × R)} {z : T}
    (h : z ∉ amKeys w) :
    (w.map (fun p => if z = p.1 then γ * p.2 else 0)).sum = 0 := by
  induction w with
  | nil => rfl
  | cons p rest ih =>
    rw [List.map_cons, List.sum_cons]
    have hzp : ¬z = p.1 := fun hc => h (by
      rw [hc]
      exact List.mem_cons_self _ _)
    rw [if_neg hzp, zero_add]
    exact ih (fun hm => h (List.mem_cons_of_mem _ hm))

theorem sum_map_ite_get (γ : R) {w : List (T × R)} (hw : amValid w)
    (z : T) :
    (w.map (fun p => if z = p.1 then γ * p.2 else 0)).sum =
      γ * amGet w z := by
  induction w with
  | nil =>
    rw [List.map_nil, List.sum_nil]
    show (0 : R) = γ * amGet ([] : List (T × R)) z
    rw [show amGet ([] : List (T × R)) z = 0 from rfl, mul_zero]
  | cons p rest ih =>
    have hcons := List.nodup_cons.mp
      (show (p.1 :: amKeys rest).Nodup from hw.1)
    have hrest : amValid rest :=
      ⟨hcons.2, fun q hq => hw.2 _ (List.mem_cons_of_mem _ hq)⟩
    rw [List.map_cons, List.sum_cons]
    by_cases hz : z = p.1
    · rw [if_pos hz, sum_map_ite_zero γ (hz ▸ hcons.1), add_zero]
      have hfind : amGet (p :: rest) z = p.2 := by
        rw [amGet, amFind, if_pos hz.symm]
        rfl
      rw [hfind]
    · rw [if_neg hz, zero_add, ih hrest]
      have hfind : amGet (p :: rest) z = amGet rest z := by
        rw [amGet, amFind, if_neg (fun hc => hz hc.symm)]
        rfl
      rw [hfind]

theorem foldKeys_valid (elem : List (T × R)) (func : T → List (T × R)) :
    ∀ (ks : List T) (acc : List (T × R)), amValid acc →
      amValid (ks.foldl
        (fun result cell =>
          (func cell).foldl
            (fun res p => amInsert res p.1 (amGet elem cell * p.2)) result)
        acc) := by
  intro ks
  induction ks with
  | nil => intro acc h; exact h
  | cons k rest ih =>
    intro acc h
    rw [List.foldl_cons]
    exact ih _ (pairFold_valid _ _ _ h)

theorem foldKeys_get (elem : List (T × R)) (func : T → List (T × R))
    (hfunc : ∀ y, amValid (func y)) (z : T) :
    ∀ (ks : List T) (acc : List (T × R)), amValid acc →
      amGet (ks.foldl
        (fun result cell =>
          (func cell).foldl
            (fun res p => amInsert res p.1 (amGet elem cell * p.2)) result)
        acc) z =
        amGet acc z +
          (ks.map (fun y => amGet elem y * amGet (func y) z)).sum := by
  intro ks
  induction ks with
  | nil =>
    intro acc h
    rw [List.foldl_nil, List.map_nil, List.sum_nil, add_zero]
  | cons k rest ih =>
    intro acc h
    rw [List.foldl_cons, ih _ (pairFold_valid _ _ _ h),
        amGet_pairFold _ z _ _ h, sum_map_ite_get _ (hfunc k) z,
        List.map_cons, List.sum_cons, add_assoc]

theorem amValid_nil : amValid ([] : List (T × R)) :=
  ⟨by simp [amKeys], by simp⟩

theorem amValid_linearApply (elem : List (T × R))
    (func : T → List (T × R)) : amValid (linearApply elem func) := by
  rw [linearApply]
  exact foldKeys_valid elem func _ _ amValid_nil

/-- The coefficient of `z` in `linear_apply(elem, func)`: the sum over
the cells of `elem` of `elem[cell]` times the coefficient of `z` in
`func cell`. -/
theorem amGet_linearApply (elem : List (T × R)) (func : T → List (T × R))
    (hfunc : ∀ y, amValid (func y)) (z : T) :
    amGet (linearApply elem func) z =
      ((amKeys elem).map
        (fun y => amGet elem y * amGet (func y) z)).sum := by
  rw [linearApply, foldKeys_get elem func hfunc z _ _ amValid_nil]
  rw [show amGet ([] : List (T × R)) z = 0 from rfl, zero_add]

end LinearApply

/-! ## Cubes and cubical complexes

`Cube<CCDIM>` (`src/chomp/chomp/complexes/cubical.hpp`) is an orthant
(array of `CCDIM` unsigned coordinates) together with an extent bitmask.
`CubicalComplex` holds the grid's minimum and maximum orthants (plus a
grading function object, which none of the verified claims use — the
claims are about the unconstrained operators, whose conditionals are the
constant-true predicate). -/

section Cubical

variable {D : ℕ} {R : Type} [DecidableEq R] [CommRing R]

/-- A hypercube cell: minimal-corner orthant plus extent bitmask. -/
structure Cube (D : ℕ) where
  orthant : Fin D → ℕ
  extent : ℕ

instance : DecidableEq (Cube D) := fun a b =>
  decidable_of_iff (a.orthant = b.orthant ∧ a.extent = b.extent) (by
    cases a
    cases b
    simp [Cube.mk.injEq])

/-- The bounds of a cubical complex (minimum defaults to the origin in
the source's two-argument constructor). -/
structure CubicalComplex (D : ℕ) where
  minimum : Fin D → ℕ
  maximum : Fin D → ℕ

/-- `outer_cell` of the boundary loop: axis-`a` coordinate incremented,
extent bit `a` cleared (`new_extent = cube_extent - axis_bit`). -/
def outerCell (cell : Cube D) (a : Fin D) : Cube D :=
  ⟨Function.update cell.orthant a (cell.orthant a + 1),
   cell.extent - 2 ^ a.val⟩

/-- `inner_cell` of the boundary loop: same orthant, extent bit `a`
cleared. -/
def innerCell (cell : Cube D) (a : Fin D) : Cube D :=
  ⟨cell.orthant, cell.extent - 2 ^ a.val⟩

/-- `inner_cell` of the coboundary loop: axis-`a` coordinate
decremented, extent bit `a` set (`new_extent = cube_extent + axis_bit`). -/
def innerCoCell (cell : Cube D) (a : Fin D) : Cube D :=
  ⟨Function.update cell.orthant a (cell.orthant a - 1),
   cell.extent + 2 ^ a.val⟩

/-- `outer_cell` of the coboundary loop: same orthant, extent bit `a`
set. -/
def outerCoCell (cell : Cube D) (a : Fin D) : Cube D :=
  ⟨cell.orthant, cell.extent + 2 ^ a.val⟩

/-- The body of one spanned-axis iteration of
`CubicalComplex::boundary_if`: insert the outer cell (unless at the
complex's maximum edge, and only if the condition accepts it) with
`+coef`, then the inner cell (if accepted) with `-coef`. -/
def bdStep (cc : CubicalComplex D) (cond : Cube D → Bool) (cell : Cube D)
    (a : Fin D) (coef : R) (result : List (Cube D × R)) :
    List (Cube D × R) :=
  -- no outer cells along maximum edge of complex
  let result1 :=
    if cell.orthant a ≠ cc.maximum a then
      (if cond (outerCell cell a) then
        amInsert result (outerCell cell a) coef
      else result)
    else result
  -- always inner cells
  if cond (innerCell cell a) then
    amInsert result1 (innerCell cell a) (-coef)
  else result1

/-- The axis loop of `CubicalComplex::boundary_if`: on each axis with
extent run `bdStep` and negate the running coefficient. -/
def boundaryFold (cc : CubicalComplex D) (cond : Cube D → Bool)
    (cell : Cube D) :
    List (Fin D) → R → List (Cube D × R) → List (Cube D × R)
  | [], _, result => result
  | a :: rest, coef, result =>
    if cell.extent.testBit a.val then
      boundaryFold cc cond cell rest (-coef) (bdStep cc cond cell a coef result)
    else
      boundaryFold cc cond cell rest coef result

/-- `CubicalComplex::boundary_if(cell, cond)`. -/
def boundaryIf (cc : CubicalComplex D) (cell : Cube D)
    (cond : Cube D → Bool) : List (Cube D × R) :=
  boundaryFold cc cond cell (List.finRange D) 1 []

/-- The free function `boundary(complex, cell)`: `boundary_if` with the
constant-true condition. -/
def cubeBoundary (cc : CubicalComplex D) (cell : Cube D) :
    List (Cube D × R) :=
  boundaryIf cc cell (fun _ => true)

/-- The body of one unspanned-axis iteration of
`CubicalComplex::coboundary_if`: insert the inner cell (unless at the
complex's minimum edge, and only if the condition accepts it) with
`+coef`, then the outer cell (if accepted) with `-coef`. -/
def cobStep (cc : CubicalComplex D) (cond : Cube D → Bool) (cell : Cube D)
    (a : Fin D) (coef : R) (result : List (Cube D × R)) :
    List (Cube D × R) :=
  -- no inner cells along minimum edge of complex
  let result1 :=
    if cell.orthant a ≠ cc.minimum a then
      (if cond (innerCoCell cell a) then
        amInsert result (innerCoCell cell a) coef
      else result)
    else result
  -- always outer cells
  if cond (outerCoCell cell a) then
    amInsert result1 (outerCoCell cell a) (-coef)
  else result1

/-- The axis loop of `CubicalComplex::coboundary_if`: on each axis
without extent run `cobStep`; the running coefficient is negated on axes
with extent. -/
def coboundaryFold (cc : CubicalComplex D) (cond : Cube D → Bool)
    (cell : Cube D) :
    List (Fin D) → R → List (Cube D × R) → List (Cube D × R)
  | [], _, result => result
  | a :: rest, coef, result =>
    if cell.extent.testBit a.val = false then
      coboundaryFold cc cond cell rest coef (cobStep cc cond cell a coef result)
    else
      -- negate coefficient on axes with extent
      coboundaryFold cc cond cell rest (-coef) result

/-- `CubicalComplex::coboundary_if(cell, cond)`. -/
def coboundaryIf (cc : CubicalComplex D) (cell : Cube D)
    (cond : Cube D → Bool) : List (Cube D × R) :=
  coboundaryFold cc cond cell (List.finRange D) 1 []

/-- The free function `coboundary(complex, cell)`. -/
def cubeCoboundary (cc : CubicalComplex D) (cell : Cube D) :
    List (Cube D × R) :=
  coboundaryIf cc cell (fun _ => true)

/-- The chain overload of `boundary`: linear application of the
cell-level boundary. -/
def chainBoundary (cc : CubicalComplex D) (chain : List (Cube D × R)) :
    List (Cube D × R) :=
  linearApply chain (fun cell => cubeBoundary cc cell)

/-- The chain overload of `coboundary`. -/
def chainCoboundary (cc : CubicalComplex D) (chain : List (Cube D × R)) :
    List (Cube D × R) :=
  linearApply chain (fun cell => cubeCoboundary cc cell)

/-- The running coefficient of the boundary/coboundary loop at axis `a`:
`(-1)` to the number of spanned axes before `a`. -/
def msign (e a : ℕ) : R :=
  (-1 : R) ^ pbelow e a

theorem msign_zero (e : ℕ) : (msign e 0 : R) = 1 := by
  rw [msign, pbelow_zero, pow_zero]

theorem msign_succ_of_testBit {e s : ℕ} (h : e.testBit s = true) :
    (msign e (s + 1) : R) = -msign e s := by
  rw [msign, msign, pbelow_succ, if_pos h, pow_succ, mul_neg_one]

theorem msign_succ_of_not_testBit {e s : ℕ} (h : e.testBit s ≠ true) :
    (msign e (s + 1) : R) = msign e s := by
  rw [msign, msign, pbelow_succ, if_neg h, Nat.add_zero]

theorem msign_sub_pow_lt {e a b : ℕ} (ha : e.testBit a = true)
    (hab : a < b) : (msign (e - 2 ^ a) b : R) = -msign e b := by
  rw [msign, msign, pbelow_sub_pow_lt ha hab, pow_succ, mul_neg_one,
      neg_neg]

theorem msign_sub_pow_ge {e a b : ℕ} (ha : e.testBit a = true)
    (hab : b ≤ a) : (msign (e - 2 ^ a) b : R) = msign e b := by
  rw [msign, msign, pbelow_sub_pow_ge ha hab]

theorem msign_add_pow_lt {e a b : ℕ} (ha : e.testBit a = false)
    (hab : a < b) : (msign (e + 2 ^ a) b : R) = -msign e b := by
  rw [msign, msign, pbelow_add_pow_lt ha hab, pow_succ, mul_neg_one]

theorem msign_add_pow_ge {e a b : ℕ} (ha : e.testBit a = false)
    (hab : b ≤ a) : (msign (e + 2 ^ a) b : R) = msign e b := by
  rw [msign, msign, pbelow_add_pow_ge ha hab]

/-! ### A closed form for the boundary fold -/

/-- The contribution of axis `a` with running coefficient `coef` to the
coefficient of cell `z` in the boundary. -/
def bdTerm (cc : CubicalComplex D) (cond : Cube D → Bool) (cell : Cube D)
    (a : Fin D) (coef : R) (z : Cube D) : R :=
  (if cell.orthant a ≠ cc.maximum a ∧ cond (outerCell cell a) = true ∧
      z = outerCell cell a then coef else 0) +
  (if cond (innerCell cell a) = true ∧ z = innerCell cell a then -coef
   else 0)

/-- The recursion of `boundaryFold` as a pure sum of `bdTerm`s. -/
def bdSum (cc : CubicalComplex D) (cond : Cube D → Bool) (cell : Cube D) :
    List (Fin D) → R → Cube D → R
  | [], _, _ => 0
  | a :: rest, coef, z =>
    if cell.extent.testBit a.val then
      bdTerm cc cond cell a coef z + bdSum cc cond cell rest (-coef) z
    else
      bdSum cc cond cell rest coef z

theorem ite_ite_and {P Q : Prop} [Decidable P] [Decidable Q]
    {x y : List (Cube D × R)} :
    (if P then (if Q then x else y) else y) = if P ∧ Q then x else y := by
  by_cases hP : P
  · by_cases hQ : Q
    · rw [if_pos hP, if_pos hQ, if_pos ⟨hP, hQ⟩]
    · rw [if_pos hP, if_neg hQ, if_neg (fun hc => hQ hc.2)]
  · rw [if_neg hP, if_neg (fun hc => hP hc.1)]

theorem amValid_ite_insert {P : Prop} [Decidable P]
    {m : List (Cube D × R)} (hm : amValid m) (x : Cube D) (v : R) :
    amValid (if P then amInsert m x v else m) := by
  by_cases hP : P
  · rw [if_pos hP]
    exact amValid_amInsert hm x v
  · rw [if_neg hP]
    exact hm

theorem amGet_ite_insert {P : Prop} [Decidable P]
    {m : List (Cube D × R)} (hm : amValid m) (x : Cube D) (v : R)
    (z : Cube D) :
    amGet (if P then amInsert m x v else m) z =
      amGet m z + (if P ∧ z = x then v else 0) := by
  by_cases hP : P
  · rw [if_pos hP, amGet_amInsert hm]
    by_cases hz : z = x
    · rw [if_pos hz, if_pos ⟨hP, hz⟩]
    · rw [if_neg hz, if_neg (fun hc => hz hc.2)]
  · rw [if_neg hP, if_neg (fun hc => hP hc.1), add_zero]

theorem bdStep_eq (cc : CubicalComplex D) (cond : Cube D → Bool)
    (cell : Cube D) (a : Fin D) (coef : R) (result : List (Cube D × R)) :
    bdStep cc cond cell a coef result =
      (if cond (innerCell cell a) = true then
        amInsert
          (if cell.orthant a ≠ cc.maximum a ∧ cond (outerCell cell a) = true
           then amInsert result (outerCell cell a) coef else result)
          (innerCell cell a) (-coef)
      else
        (if cell.orthant a ≠ cc.maximum a ∧ cond (outerCell cell a) = true
         then amInsert result (outerCell cell a) coef else result)) := by
  rw [bdStep, ite_ite_and]

theorem amValid_bdStep {cc : CubicalComplex D} {cond : Cube D → Bool}
    {cell : Cube D} {a : Fin D} {coef : R} {result : List (Cube D × R)}
    (h : amValid result) : amValid (bdStep cc cond cell a coef result) := by
  rw [bdStep_eq]
  exact amValid_ite_insert (amValid_ite_insert h _ _) _ _

theorem amGet_bdStep {cc : CubicalComplex D} {cond : Cube D → Bool}
    {cell : Cube D} {a : Fin D} {coef : R} {result : List (Cube D × R)}
    (h : amValid result) (z : Cube D) :
    amGet (bdStep cc cond cell a coef result) z =
      amGet result z + bdTerm cc cond cell a coef z := by
  rw [bdStep_eq, bdTerm,
      amGet_ite_insert (amValid_ite_insert h _ _),
      amGet_ite_insert h, add_assoc]
  have h1 : ((cell.orthant a ≠ cc.maximum a ∧ cond (outerCell cell a) = true) ∧
      z = outerCell cell a) ↔
      (cell.orthant a ≠ cc.maximum a ∧ cond (outerCell cell a) = true ∧
        z = outerCell cell a) := by
    tauto
  rw [if_congr h1 rfl rfl]

theorem amValid_boundaryFold (cc : CubicalComplex D) (cond : Cube D → Bool)
    (cell : Cube D) :
    ∀ (l : List (Fin D)) (coef : R) (result : List (Cube D × R)),
      amValid result → amValid (boundaryFold cc cond cell l coef result) := by
  intro l
  induction l with
  | nil => intro coef result h; exact h
  | cons a rest ih =>
    intro coef result h
    rw [boundaryFold]
    by_cases hbit : cell.extent.testBit a.val
    · rw [if_pos hbit]
      exact ih _ _ (amValid_bdStep h)
    · rw [if_neg hbit]
      exact ih _ _ h

theorem amGet_boundaryFold (cc : CubicalComplex D) (cond : Cube D → Bool)
    (cell : Cube D) (z : Cube D) :
    ∀ (l : List (Fin D)) (coef : R) (result : List (Cube D × R)),
      amValid result →
      amGet (boundaryFold cc cond cell l coef result) z =
        amGet result z + bdSum cc cond cell l coef z := by
  intro l
  induction l with
  | nil =>
    intro coef result h
    rw [boundaryFold, bdSum, add_zero]
  | cons a rest ih =>
    intro coef result h
    rw [boundaryFold, bdSum]
    by_cases hbit : cell.extent.testBit a.val
    · rw [if_pos hbit, if_pos hbit, ih _ _ (amValid_bdStep h),
          amGet_bdStep h, add_assoc]
    · rw [if_neg hbit, if_neg hbit, ih _ _ h]

/-- The axis-`a` contribution to the coefficient of `z` in the boundary,
with the running coefficient expressed in closed form (`msign`). -/
def bdTermM (cc : CubicalComplex D) (cond : Cube D → Bool) (cell : Cube D)
    (a : Fin D) (z : Cube D) : R :=
  if cell.extent.testBit a.val then
    bdTerm cc cond cell a (msign cell.extent a.val) z
  else 0

theorem finRange_drop_cons {s : ℕ} (hs : s < D) :
    (List.finRange D).drop s = ⟨s, hs⟩ :: (List.finRange D).drop (s + 1) := by
  have hlen : s < (List.finRange D).length := by
    rw [List.length_finRange]
    exact hs
  rw [List.drop_eq_getElem_cons hlen]
  congr 1
  rw [List.getElem_finRange]
  exact Fin.ext rfl

theorem filter_ge_insert (s : ℕ) (hs : s < D) :
    (Finset.univ.filter (fun a : Fin D => s ≤ a.val)) =
      insert ⟨s, hs⟩ (Finset.univ.filter (fun a : Fin D => s + 1 ≤ a.val)) := by
  ext a
  simp only [Finset.mem_filter, Finset.mem_insert, Finset.mem_univ, true_and]
  constructor
  · intro h
    by_cases hsa : a.val = s
    · exact Or.inl (Fin.ext hsa)
    · exact Or.inr (by omega)
  · rintro (h | h)
    · rw [h]
    · omega

theorem not_mem_filter_ge_succ (s : ℕ) (hs : s < D) :
    (⟨s, hs⟩ : Fin D) ∉
      Finset.univ.filter (fun a : Fin D => s + 1 ≤ a.val) := by
  simp only [Finset.mem_filter, Finset.mem_univ, true_and]
  omega

theorem bdSum_drop (cc : CubicalComplex D) (cond : Cube D → Bool)
    (cell : Cube D) (z : Cube D) :
    ∀ (n s : ℕ), s + n = D →
      bdSum cc cond cell ((List.finRange D).drop s)
          (msign cell.extent s) z =
        ∑ a in Finset.univ.filter (fun a : Fin D => s ≤ a.val),
          (bdTermM cc cond cell a z : R) := by
  intro n
  induction n with
  | zero =>
    intro s hs
    have h1 : (List.finRange D).drop s = [] := by
      apply List.drop_eq_nil_of_le
      rw [List.length_finRange]
      omega
    have h2 : Finset.univ.filter (fun a : Fin D => s ≤ a.val) = ∅ := by
      apply Finset.filter_false_of_mem
      intro a _
      have := a.isLt
      omega
    rw [h1, h2, bdSum, Finset.sum_empty]
  | succ n ih =>
    intro s hs
    have hsD : s < D := by omega
    rw [finRange_drop_cons hsD, bdSum, filter_ge_insert s hsD,
        Finset.sum_insert (not_mem_filter_ge_succ s hsD)]
    by_cases hbit : cell.extent.testBit s
    · rw [if_pos hbit, bdTermM, if_pos hbit]
      congr 1
      rw [← msign_succ_of_testBit hbit]
      exact ih (s + 1) (by omega)
    · rw [if_neg hbit, bdTermM, if_neg hbit, zero_add,
          ← msign_succ_of_not_testBit hbit]
      exact ih (s + 1) (by omega)

theorem amValid_empty : amValid ([] : List (Cube D × R)) :=
  ⟨List.nodup_nil, by simp⟩

theorem amValid_boundaryIf (cc : CubicalComplex D) (cell : Cube D)
    (cond : Cube D → Bool) : amValid (boundaryIf (R := R) cc cell cond) :=
  amValid_boundaryFold cc cond cell _ _ _ amValid_empty

/-- The coefficient of `z` in `boundary_if(cell, cond)` is the sum over
all axes of the closed-form axis contributions. -/
theorem amGet_boundaryIf (cc : CubicalComplex D) (cell : Cube D)
    (cond : Cube D → Bool) (z : Cube D) :
    amGet (boundaryIf (R := R) cc cell cond) z =
      ∑ a : Fin D, (bdTermM cc cond cell a z : R) := by
  rw [boundaryIf, amGet_boundaryFold cc cond cell z _ _ _ amValid_empty]
  have h0 : amGet ([] : List (Cube D × R)) z = 0 := rfl
  rw [h0, zero_add]
  have hsum := bdSum_drop (R := R) cc cond cell z D 0 (by omega)
  rw [List.drop_zero, msign_zero] at hsum
  rw [hsum]
  have hfil : Finset.univ.filter (fun a : Fin D => 0 ≤ a.val) =
      (Finset.univ : Finset (Fin D)) :=
    Finset.filter_true_of_mem (fun a _ => Nat.zero_le _)
  rw [hfil]

theorem amKeys_ite_insert_subset {P : Prop} [Decidable P]
    {m : List (Cube D × R)} {x : Cube D} {v : R} {z : Cube D}
    (h : z ∈ amKeys (if P then amInsert m x v else m)) :
    z = x ∨ z ∈ amKeys m := by
  by_cases hP : P
  · rw [if_pos hP] at h
    exact amKeys_amInsert_subset h
  · rw [if_neg hP] at h
    exact Or.inr h

theorem amKeys_bdStep_subset {cc : CubicalComplex D} {cond : Cube D → Bool}
    {cell : Cube D} {a : Fin D} {coef : R} {result : List (Cube D × R)}
    {z : Cube D} (h : z ∈ amKeys (bdStep cc cond cell a coef result)) :
    z = outerCell cell a ∨ z = innerCell cell a ∨ z ∈ amKeys result := by
  rw [bdStep_eq] at h
  rcases amKeys_ite_insert_subset h with h' | h'
  · exact Or.inr (Or.inl h')
  · rcases amKeys_ite_insert_subset h' with h'' | h''
    · exact Or.inl h''
    · exact Or.inr (Or.inr h'')

theorem amKeys_boundaryFold_subset (cc : CubicalComplex D)
    (cond : Cube D → Bool) (cell : Cube D) {z : Cube D} :
    ∀ (l : List (Fin D)) (coef : R) (result : List (Cube D × R)),
      z ∈ amKeys (boundaryFold cc cond cell l coef result) →
      z ∈ amKeys result ∨
        ∃ a : Fin D, z = outerCell cell a ∨ z = innerCell cell a := by
  intro l
  induction l with
  | nil => intro coef result h; exact Or.inl h
  | cons a rest ih =>
    intro coef result h
    rw [boundaryFold] at h
    by_cases hbit : cell.extent.testBit a.val
    · rw [if_pos hbit] at h
      rcases ih _ _ h with h' | h'
      · rcases amKeys_bdStep_subset h' with h'' | h'' | h''
        · exact Or.inr ⟨a, Or.inl h''⟩
        · exact Or.inr ⟨a, Or.inr h''⟩
        · exact Or.inl h''
      · exact Or.inr h'
    · rw [if_neg hbit] at h
      exact ih _ _ h

theorem amKeys_boundaryIf_subset (cc : CubicalComplex D) (cell : Cube D)
    (cond : Cube D → Bool) {z : Cube D}
    (h : z ∈ amKeys (boundaryIf (R := R) cc cell cond)) :
    ∃ a : Fin D, z = outerCell cell a ∨ z = innerCell cell a := by
  rcases amKeys_boundaryFold_subset cc cond cell _ _ _ h with h' | h'
  · simp [amKeys] at h'
  · exact h'

/-! ### A closed form for the coboundary fold -/

/-- The contribution of axis `a` with running coefficient `coef` to the
coefficient of cell `z` in the coboundary. -/
def cobTerm (cc : CubicalComplex D) (cond : Cube D → Bool) (cell : Cube D)
    (a : Fin D) (coef : R) (z : Cube D) : R :=
  (if cell.orthant a ≠ cc.minimum a ∧ cond (innerCoCell cell a) = true ∧
      z = innerCoCell cell a then coef else 0) +
  (if cond (outerCoCell cell a) = true ∧ z = outerCoCell cell a then -coef
   else 0)

/-- The recursion of `coboundaryFold` as a pure sum of `cobTerm`s. -/
def cobSum (cc : CubicalComplex D) (cond : Cube D → Bool) (cell : Cube D) :
    List (Fin D) → R → Cube D → R
  | [], _, _ => 0
  | a :: rest, coef, z =>
    if cell.extent.testBit a.val = false then
      cobTerm cc cond cell a coef z + cobSum cc cond cell rest coef z
    else
      cobSum cc cond cell rest (-coef) z

theorem cobStep_eq (cc : CubicalComplex D) (cond : Cube D → Bool)
    (cell : Cube D) (a : Fin D) (coef : R) (result : List (Cube D × R)) :
    cobStep cc cond cell a coef result =
      (if cond (outerCoCell cell a) = true then
        amInsert
          (if cell.orthant a ≠ cc.minimum a ∧ cond (innerCoCell cell a) = true
           then amInsert result (innerCoCell cell a) coef else result)
          (outerCoCell cell a) (-coef)
      else
        (if cell.orthant a ≠ cc.minimum a ∧ cond (innerCoCell cell a) = true
         then amInsert result (innerCoCell cell a) coef else result)) := by
  rw [cobStep, ite_ite_and]

theorem amValid_cobStep {cc : CubicalComplex D} {cond : Cube D → Bool}
    {cell : Cube D} {a : Fin D} {coef : R} {result : List (Cube D × R)}
    (h : amValid result) : amValid (cobStep cc cond cell a coef result) := by
  rw [cobStep_eq]
  exact amValid_ite_insert (amValid_ite_insert h _ _) _ _

theorem amGet_cobStep {cc : CubicalComplex D} {cond : Cube D → Bool}
    {cell : Cube D} {a : Fin D} {coef : R} {result : List (Cube D × R)}
    (h : amValid result) (z : Cube D) :
    amGet (cobStep cc cond cell a coef result) z =
      amGet result z + cobTerm cc cond cell a coef z := by
  rw [cobStep_eq, cobTerm,
      amGet_ite_insert (amValid_ite_insert h _ _),
      amGet_ite_insert h, add_assoc]
  have h1 : ((cell.orthant a ≠ cc.minimum a ∧ cond (innerCoCell cell a) = true) ∧
      z = innerCoCell cell a) ↔
      (cell.orthant a ≠ cc.minimum a ∧ cond (innerCoCell cell a) = true ∧
        z = innerCoCell cell a) := by
    tauto
  rw [if_congr h1 rfl rfl]

theorem amValid_coboundaryFold (cc : CubicalComplex D) (cond : Cube D → Bool)
    (cell : Cube D) :
    ∀ (l : List (Fin D)) (coef : R) (result : List (Cube D × R)),
      amValid result → amValid (coboundaryFold cc cond cell l coef result) := by
  intro l
  induction l with
  | nil => intro coef result h; exact h
  | cons a rest ih =>
    intro coef result h
    rw [coboundaryFold]
    by_cases hbit : cell.extent.testBit a.val = false
    · rw [if_pos hbit]
      exact ih _ _ (amValid_cobStep h)
    · rw [if_neg hbit]
      exact ih _ _ h

theorem amGet_coboundaryFold (cc : CubicalComplex D) (cond : Cube D → Bool)
    (cell : Cube D) (z : Cube D) :
    ∀ (l : List (Fin D)) (coef : R) (result : List (Cube D × R)),
      amValid result →
      amGet (coboundaryFold cc cond cell l coef result) z =
        amGet result z + cobSum cc cond cell l coef z := by
  intro l
  induction l with
  | nil =>
    intro coef result h
    rw [coboundaryFold, cobSum, add_zero]
  | cons a rest ih =>
    intro coef result h
    rw [coboundaryFold, cobSum]
    by_cases hbit : cell.extent.testBit a.val = false
    · rw [if_pos hbit, if_pos hbit, ih _ _ (amValid_cobStep h),
          amGet_cobStep h, add_assoc]
    · rw [if_neg hbit, if_neg hbit, ih _ _ h]

/-- The axis-`a` contribution to the coefficient of `z` in the
coboundary, with the running coefficient in closed form. -/
def cobTermM (cc : CubicalComplex D) (cond : Cube D → Bool) (cell : Cube D)
    (a : Fin D) (z : Cube D) : R :=
  if cell.extent.testBit a.val = false then
    cobTerm cc cond cell a (msign cell.extent a.val) z
  else 0

theorem cobSum_drop (cc : CubicalComplex D) (cond : Cube D → Bool)
    (cell : Cube D) (z : Cube D) :
    ∀ (n s : ℕ), s + n = D →
      cobSum cc cond cell ((List.finRange D).drop s)
          (msign cell.extent s) z =
        ∑ a in Finset.univ.filter (fun a : Fin D => s ≤ a.val),
          (cobTermM cc cond cell a z : R) := by
  intro n
  induction n with
  | zero =>
    intro s hs
    have h1 : (List.finRange D).drop s = [] := by
      apply List.drop_eq_nil_of_le
      rw [List.length_finRange]
      omega
    have h2 : Finset.univ.filter (fun a : Fin D => s ≤ a.val) = ∅ := by
      apply Finset.filter_false_of_mem
      intro a _
      have := a.isLt
      omega
    rw [h1, h2, cobSum, Finset.sum_empty]
  | succ n ih =>
    intro s hs
    have hsD : s < D := by omega
    rw [finRange_drop_cons hsD, cobSum, filter_ge_insert s hsD,
        Finset.sum_insert (not_mem_filter_ge_succ s hsD)]
    by_cases hbit : cell.extent.testBit s = false
    · rw [if_pos hbit, cobTermM, if_pos hbit]
      congr 1
      rw [show (msign cell.extent s : R) = msign cell.extent (s + 1) from
            (msign_succ_of_not_testBit (by rw [hbit]; exact
              Bool.false_ne_true)).symm]
      exact ih (s + 1) (by omega)
    · have hbit' : cell.extent.testBit s = true := by
        revert hbit
        cases cell.extent.testBit s <;> simp
      rw [if_neg hbit, cobTermM, if_neg hbit, zero_add,
          ← msign_succ_of_testBit hbit']
      exact ih (s + 1) (by omega)

theorem amValid_coboundaryIf (cc : CubicalComplex D) (cell : Cube D)
    (cond : Cube D → Bool) : amValid (coboundaryIf (R := R) cc cell cond) :=
  amValid_coboundaryFold cc cond cell _ _ _ amValid_empty

/-- The coefficient of `z` in `coboundary_if(cell, cond)` is the sum
over all axes of the closed-form axis contributions. -/
theorem amGet_coboundaryIf (cc : CubicalComplex D) (cell : Cube D)
    (cond : Cube D → Bool) (z : Cube D) :
    amGet (coboundaryIf (R := R) cc cell cond) z =
      ∑ a : Fin D, (cobTermM cc cond cell a z : R) := by
  rw [coboundaryIf, amGet_coboundaryFold cc cond cell z _ _ _ amValid_empty]
  have h0 : amGet ([] : List (Cube D × R)) z = 0 := rfl
  rw [h0, zero_add]
  have hsum := cobSum_drop (R := R) cc cond cell z D 0 (by omega)
  rw [List.drop_zero, msign_zero] at hsum
  rw [hsum]
  have hfil : Finset.univ.filter (fun a : Fin D => 0 ≤ a.val) =
      (Finset.univ : Finset (Fin D)) :=
    Finset.filter_true_of_mem (fun a _ => Nat.zero_le _)
  rw [hfil]

theorem amKeys_cobStep_subset {cc : CubicalComplex D} {cond : Cube D → Bool}
    {cell : Cube D} {a : Fin D} {coef : R} {result : List (Cube D × R)}
    {z : Cube D} (h : z ∈ amKeys (cobStep cc cond cell a coef result)) :
    z = innerCoCell cell a ∨ z = outerCoCell cell a ∨ z ∈ amKeys result := by
  rw [cobStep_eq] at h
  rcases amKeys_ite_insert_subset h with h' | h'
  · exact Or.inr (Or.inl h')
  · rcases amKeys_ite_insert_subset h' with h'' | h''
    · exact Or.inl h''
    · exact Or.inr (Or.inr h'')

theorem amKeys_coboundaryFold_subset (cc : CubicalComplex D)
    (cond : Cube D → Bool) (cell : Cube D) {z : Cube D} :
    ∀ (l : List (Fin D)) (coef : R) (result : List (Cube D × R)),
      z ∈ amKeys (coboundaryFold cc cond cell l coef result) →
      z ∈ amKeys result ∨
        ∃ a : Fin D, z = innerCoCell cell a ∨ z = outerCoCell cell a := by
  intro l
  induction l with
  | nil => intro coef result h; exact Or.inl h
  | cons a rest ih =>
    intro coef result h
    rw [coboundaryFold] at h
    by_cases hbit : cell.extent.testBit a.val = false
    · rw [if_pos hbit] at h
      rcases ih _ _ h with h' | h'
      · rcases amKeys_cobStep_subset h' with h'' | h'' | h''
        · exact Or.inr ⟨a, Or.inl h''⟩
        · exact Or.inr ⟨a, Or.inr h''⟩
        · exact Or.inl h''
      · exact Or.inr h'
    · rw [if_neg hbit] at h
      exact ih _ _ h

theorem amKeys_coboundaryIf_subset (cc : CubicalComplex D) (cell : Cube D)
    (cond : Cube D → Bool) {z : Cube D}
    (h : z ∈ amKeys (coboundaryIf (R := R) cc cell cond)) :
    ∃ a : Fin D, z = innerCoCell cell a ∨ z = outerCoCell cell a := by
  rcases amKeys_coboundaryFold_subset cc cond cell _ _ _ h with h' | h'
  · simp [amKeys] at h'
  · exact h'

/-! ### Distinctness of faces and cofaces -/

theorem outerCell_ne_innerCell (x : Cube D) (a b : Fin D) :
    outerCell x a ≠ innerCell x b := by
  intro h
  have horth := congrFun (congrArg Cube.orthant h) a
  rw [outerCell, innerCell] at horth
  simp only at horth
  rw [Function.update_same] at horth
  omega

theorem outerCell_ne_outerCell {x : Cube D} {a b : Fin D} (hab : a ≠ b) :
    outerCell x a ≠ outerCell x b := by
  intro h
  have horth := congrFun (congrArg Cube.orthant h) a
  rw [outerCell, outerCell] at horth
  simp only at horth
  rw [Function.update_same, Function.update_noteq hab] at horth
  omega

theorem innerCell_ne_innerCell {x : Cube D} {a b : Fin D} (hab : a ≠ b)
    (ha : x.extent.testBit a.val = true)
    (hb : x.extent.testBit b.val = true) :
    innerCell x a ≠ innerCell x b := by
  intro h
  have hext := congrArg Cube.extent h
  rw [innerCell, innerCell] at hext
  simp only at hext
  have h1 : (x.extent - 2 ^ a.val).testBit a.val = false := by
    rw [testBit_sub_pow ha]
    simp
  have h2 : (x.extent - 2 ^ b.val).testBit a.val = true := by
    rw [testBit_sub_pow hb]
    have hne : a.val ≠ b.val := fun hc => hab (Fin.ext hc)
    simp [hne, ha]
  rw [hext, h2] at h1
  exact Bool.noConfusion h1

theorem innerCoCell_ne_outerCoCell {x : Cube D} {a : Fin D}
    (hx : 1 ≤ x.orthant a) : innerCoCell x a ≠ outerCoCell x a := by
  intro h
  have horth := congrFun (congrArg Cube.orthant h) a
  rw [innerCoCell, outerCoCell] at horth
  simp only at horth
  rw [Function.update_same] at horth
  omega

theorem coCell_extent_eq {x : Cube D} {a b : Fin D}
    (h : x.extent + 2 ^ a.val = x.extent + 2 ^ b.val) : a = b := by
  have h2 := add_left_cancel h
  exact Fin.ext (Nat.pow_right_injective (le_refl 2) h2)

/-! ### The coefficient of a single outer face / inner coface -/

theorem bdTermM_eq_zero_of_ne_outer {cc : CubicalComplex D}
    {cond : Cube D → Bool} {x : Cube D} {a b : Fin D} (hab : b ≠ a)
    (_ha : x.extent.testBit a.val = true) :
    bdTermM cc cond x b (outerCell x a) = (0 : R) := by
  rw [bdTermM]
  by_cases hbitb : x.extent.testBit b.val
  · rw [if_pos hbitb, bdTerm,
        if_neg (fun hc =>
          outerCell_ne_outerCell (fun h : a = b => hab h.symm) hc.2.2),
        if_neg (fun hc => outerCell_ne_innerCell x a b hc.2),
        add_zero]
  · rw [if_neg hbitb]

theorem amGet_boundaryIf_outer {cc : CubicalComplex D} {x : Cube D}
    (cond : Cube D → Bool) {a : Fin D}
    (ha : x.extent.testBit a.val = true) :
    amGet (boundaryIf (R := R) cc x cond) (outerCell x a) =
      if x.orthant a ≠ cc.maximum a ∧ cond (outerCell x a) = true
      then (msign x.extent a.val : R) else 0 := by
  have h2 : (if cond (innerCell x a) = true ∧
      outerCell x a = innerCell x a then -(msign x.extent a.val : R)
      else 0) = 0 :=
    if_neg (fun hc => outerCell_ne_innerCell x a a hc.2)
  rw [amGet_boundaryIf,
      Finset.sum_eq_single_of_mem a (Finset.mem_univ a)
        (fun b _ hb => bdTermM_eq_zero_of_ne_outer hb ha),
      bdTermM, if_pos ha, bdTerm, h2, add_zero]
  apply if_congr _ rfl rfl
  constructor
  · intro h
    exact ⟨h.1, h.2.1⟩
  · intro h
    exact ⟨h.1, h.2, rfl⟩

theorem cobTermM_eq_zero_of_ne_inner {cc : CubicalComplex D}
    {cond : Cube D → Bool} {x : Cube D} {a b : Fin D} (hab : b ≠ a) :
    cobTermM cc cond x b (innerCoCell x a) = (0 : R) := by
  rw [cobTermM]
  by_cases hbitb : x.extent.testBit b.val = false
  · rw [if_pos hbitb, cobTerm,
        if_neg (fun hc =>
          hab (coCell_extent_eq (congrArg Cube.extent hc.2.2)).symm),
        if_neg (fun hc =>
          hab (coCell_extent_eq (congrArg Cube.extent hc.2)).symm),
        add_zero]
  · rw [if_neg hbitb]

theorem amGet_coboundaryIf_inner {cc : CubicalComplex D} {x : Cube D}
    (cond : Cube D → Bool) {a : Fin D}
    (ha : x.extent.testBit a.val = false)
    (hone : 1 ≤ x.orthant a) :
    amGet (coboundaryIf (R := R) cc x cond) (innerCoCell x a) =
      if x.orthant a ≠ cc.minimum a ∧ cond (innerCoCell x a) = true
      then (msign x.extent a.val : R) else 0 := by
  have h2 : (if cond (outerCoCell x a) = true ∧
      innerCoCell x a = outerCoCell x a then -(msign x.extent a.val : R)
      else 0) = 0 :=
    if_neg (fun hc => innerCoCell_ne_outerCoCell hone hc.2)
  rw [amGet_coboundaryIf,
      Finset.sum_eq_single_of_mem a (Finset.mem_univ a)
        (fun b _ hb => cobTermM_eq_zero_of_ne_inner hb),
      cobTermM, if_pos ha, cobTerm, h2, add_zero]
  apply if_congr _ rfl rfl
  constructor
  · intro h
    exact ⟨h.1, h.2.1⟩
  · intro h
    exact ⟨h.1, h.2, rfl⟩

theorem inner_not_mem_coboundaryIf_at_min {cc : CubicalComplex D}
    {x : Cube D} (cond : Cube D → Bool) {a : Fin D}
    (hmin : x.orthant a = cc.minimum a) (h1 : 1 ≤ cc.minimum a) :
    innerCoCell x a ∉ amKeys (coboundaryIf (R := R) cc x cond) := by
  intro hmem
  have hget := (mem_amKeys_iff (amValid_coboundaryIf cc x cond)).mp hmem
  apply hget
  rw [amGet_coboundaryIf,
      Finset.sum_eq_single_of_mem a (Finset.mem_univ a)
        (fun b _ hb => cobTermM_eq_zero_of_ne_inner hb),
      cobTermM]
  by_cases hbit : x.extent.testBit a.val = false
  · have h2 : (if cond (outerCoCell x a) = true ∧
        innerCoCell x a = outerCoCell x a then
          -(msign x.extent a.val : R) else 0) = 0 :=
      if_neg (fun hc =>
        innerCoCell_ne_outerCoCell (by omega) hc.2)
    rw [if_pos hbit, cobTerm, if_neg (fun hc => hc.1 hmin), h2, add_zero]
  · rw [if_neg hbit]

/-! ### Cell algebra for the boundary-of-boundary computation -/

theorem cube_eq_of {x y : Cube D} (h1 : x.orthant = y.orthant)
    (h2 : x.extent = y.extent) : x = y := by
  cases x
  cases y
  cases h1
  cases h2
  rfl

theorem outerCell_orthant (x : Cube D) (a : Fin D) :
    (outerCell x a).orthant =
      Function.update x.orthant a (x.orthant a + 1) := rfl

theorem outerCell_extent (x : Cube D) (a : Fin D) :
    (outerCell x a).extent = x.extent - 2 ^ a.val := rfl

theorem innerCell_orthant (x : Cube D) (a : Fin D) :
    (innerCell x a).orthant = x.orthant := rfl

theorem innerCell_extent (x : Cube D) (a : Fin D) :
    (innerCell x a).extent = x.extent - 2 ^ a.val := rfl

theorem innerCoCell_orthant (x : Cube D) (a : Fin D) :
    (innerCoCell x a).orthant =
      Function.update x.orthant a (x.orthant a - 1) := rfl

theorem innerCoCell_extent (x : Cube D) (a : Fin D) :
    (innerCoCell x a).extent = x.extent + 2 ^ a.val := rfl

theorem outerCoCell_orthant (x : Cube D) (a : Fin D) :
    (outerCoCell x a).orthant = x.orthant := rfl

theorem outerCoCell_extent (x : Cube D) (a : Fin D) :
    (outerCoCell x a).extent = x.extent + 2 ^ a.val := rfl

theorem outerCell_orthant_apply_ne (x : Cube D) {a b : Fin D}
    (hba : b ≠ a) : (outerCell x a).orthant b = x.orthant b := by
  rw [outerCell_orthant, Function.update_noteq hba]

theorem innerCoCell_orthant_apply_ne (x : Cube D) {a b : Fin D}
    (hba : b ≠ a) : (innerCoCell x a).orthant b = x.orthant b := by
  rw [innerCoCell_orthant, Function.update_noteq hba]

/-- Taking the outer face on axis `b` then axis `a` is the same as the
other way around (`a ≠ b`). -/
theorem outer_outer_comm {x : Cube D} {a b : Fin D} (hab : a ≠ b) :
    outerCell (outerCell x a) b = outerCell (outerCell x b) a := by
  apply cube_eq_of
  · simp only [outerCell_orthant, Function.update_noteq hab,
      Function.update_noteq (Ne.symm hab)]
    rw [Function.update_comm hab]
  · simp only [outerCell_extent]
    omega

/-- Inner face after outer face equals outer face after inner face. -/
theorem inner_outer_comm (x : Cube D) (a b : Fin D) :
    innerCell (outerCell x a) b = outerCell (innerCell x b) a := by
  apply cube_eq_of
  · simp only [innerCell_orthant, outerCell_orthant]
  · simp only [innerCell_extent, outerCell_extent]
    omega

theorem inner_inner_comm (x : Cube D) (a b : Fin D) :
    innerCell (innerCell x a) b = innerCell (innerCell x b) a := by
  apply cube_eq_of
  · rfl
  · simp only [innerCell_extent]
    omega

theorem co_outer_outer_comm (x : Cube D) (a b : Fin D) :
    outerCoCell (outerCoCell x a) b = outerCoCell (outerCoCell x b) a := by
  apply cube_eq_of
  · rfl
  · simp only [outerCoCell_extent]
    omega

theorem co_outer_inner_comm (x : Cube D) (a b : Fin D) :
    outerCoCell (innerCoCell x a) b = innerCoCell (outerCoCell x b) a := by
  apply cube_eq_of
  · simp only [outerCoCell_orthant, innerCoCell_orthant]
  · simp only [outerCoCell_extent, innerCoCell_extent]
    omega

theorem co_inner_inner_comm {x : Cube D} {a b : Fin D} (hab : a ≠ b) :
    innerCoCell (innerCoCell x a) b = innerCoCell (innerCoCell x b) a := by
  apply cube_eq_of
  · simp only [innerCoCell_orthant, Function.update_noteq hab,
      Function.update_noteq (Ne.symm hab)]
    rw [Function.update_comm hab]
  · simp only [innerCoCell_extent]
    omega

/-! ### Helpers for pushing conditionals through sums -/

theorem ite_and_ring {P Q : Prop} [Decidable P] [Decidable Q] (c : R) :
    (if P ∧ Q then c else 0) = if P then (if Q then c else 0) else 0 := by
  by_cases hP : P
  · by_cases hQ : Q
    · rw [if_pos ⟨hP, hQ⟩, if_pos hP, if_pos hQ]
    · rw [if_neg (fun hc => hQ hc.2), if_pos hP, if_neg hQ]
  · rw [if_neg (fun hc => hP hc.1), if_neg hP]

theorem ite_finset_sum {ι : Type} {P : Prop} [Decidable P] {s : Finset ι}
    (f : ι → R) :
    (if P then ∑ b in s, f b else 0) = ∑ b in s, (if P then f b else 0) := by
  by_cases hP : P
  · rw [if_pos hP]
    exact Finset.sum_congr rfl (fun b _ => (if_pos hP).symm)
  · rw [if_neg hP, eq_comm]
    exact Finset.sum_eq_zero (fun b _ => if_neg hP)

/-! ### The boundary terms with the constant-true condition -/

theorem bdTerm_true (cc : CubicalComplex D) (x : Cube D) (a : Fin D)
    (coef : R) (z : Cube D) :
    bdTerm cc (fun _ => true) x a coef z =
      (if x.orthant a ≠ cc.maximum a ∧ z = outerCell x a then coef
       else 0) +
      (if z = innerCell x a then -coef else 0) := by
  rw [bdTerm]
  congr 1
  · apply if_congr _ rfl rfl
    simp
  · apply if_congr _ rfl rfl
    simp

theorem bdTermM_true (cc : CubicalComplex D) (x : Cube D) (a : Fin D)
    (z : Cube D) :
    (bdTermM cc (fun _ => true) x a z : R) =
      if x.extent.testBit a.val then
        (if x.orthant a ≠ cc.maximum a ∧ z = outerCell x a then
          (msign x.extent a.val : R) else 0) +
        (if z = innerCell x a then -(msign x.extent a.val : R) else 0)
      else 0 := by
  rw [bdTermM, bdTerm_true]

theorem cobTerm_true (cc : CubicalComplex D) (x : Cube D) (a : Fin D)
    (coef : R) (z : Cube D) :
    cobTerm cc (fun _ => true) x a coef z =
      (if x.orthant a ≠ cc.minimum a ∧ z = innerCoCell x a then coef
       else 0) +
      (if z = outerCoCell x a then -coef else 0) := by
  rw [cobTerm]
  congr 1
  · apply if_congr _ rfl rfl
    simp
  · apply if_congr _ rfl rfl
    simp

theorem cobTermM_true (cc : CubicalComplex D) (x : Cube D) (a : Fin D)
    (z : Cube D) :
    (cobTermM cc (fun _ => true) x a z : R) =
      if x.extent.testBit a.val = false then
        (if x.orthant a ≠ cc.minimum a ∧ z = innerCoCell x a then
          (msign x.extent a.val : R) else 0) +
        (if z = outerCoCell x a then -(msign x.extent a.val : R) else 0)
      else 0 := by
  rw [cobTermM, cobTerm_true]

theorem amValid_cubeBoundary (cc : CubicalComplex D) (cell : Cube D) :
    amValid (cubeBoundary (R := R) cc cell) :=
  amValid_boundaryIf cc cell _

theorem amGet_cubeBoundary (cc : CubicalComplex D) (cell : Cube D)
    (z : Cube D) :
    amGet (cubeBoundary (R := R) cc cell) z =
      ∑ a : Fin D, (bdTermM cc (fun _ => true) cell a z : R) :=
  amGet_boundaryIf cc cell _ z

theorem amValid_cubeCoboundary (cc : CubicalComplex D) (cell : Cube D) :
    amValid (cubeCoboundary (R := R) cc cell) :=
  amValid_coboundaryIf cc cell _

theorem amGet_cubeCoboundary (cc : CubicalComplex D) (cell : Cube D)
    (z : Cube D) :
    amGet (cubeCoboundary (R := R) cc cell) z =
      ∑ a : Fin D, (cobTermM cc (fun _ => true) cell a z : R) :=
  amGet_coboundaryIf cc cell _ z

/-! ### The double sum behind the boundary of a boundary -/

/-- The contribution of spanned axis `a` of `x` to the coefficient of
`z` in `boundary(boundary x)`: the signed coefficients of `z` in the
boundaries of the outer and inner faces on axis `a`. -/
def ddFace (cc : CubicalComplex D) (x z : Cube D) (a : Fin D) : R :=
  if x.extent.testBit a.val then
    (if x.orthant a ≠ cc.maximum a then
      (msign x.extent a.val : R) *
        amGet (cubeBoundary cc (outerCell x a)) z
     else 0) +
    -(msign x.extent a.val : R) *
      amGet (cubeBoundary cc (innerCell x a)) z
  else 0

/-- One summand of the fully expanded double sum for
`boundary(boundary x)`. -/
def ddTerm (cc : CubicalComplex D) (x z : Cube D) (a b : Fin D) : R :=
  if x.extent.testBit a.val then
    (if x.orthant a ≠ cc.maximum a then
      (msign x.extent a.val : R) *
        bdTermM cc (fun _ => true) (outerCell x a) b z
     else 0) +
    -(msign x.extent a.val : R) *
      bdTermM cc (fun _ => true) (innerCell x a) b z
  else 0

theorem ddFace_eq_sum (cc : CubicalComplex D) (x z : Cube D) (a : Fin D) :
    (ddFace cc x z a : R) = ∑ b : Fin D, ddTerm cc x z a b := by
  rw [ddFace]
  by_cases hbit : x.extent.testBit a.val
  · rw [if_pos hbit, amGet_cubeBoundary, amGet_cubeBoundary,
        Finset.mul_sum, Finset.mul_sum, ite_finset_sum,
        ← Finset.sum_add_distrib]
    apply Finset.sum_congr rfl
    intro b _
    rw [ddTerm, if_pos hbit]
  · rw [if_neg hbit, eq_comm]
    apply Finset.sum_eq_zero
    intro b _
    rw [ddTerm, if_neg hbit]

/-- The coefficient of `z` in the boundary of the boundary of `x` as a
double sum over ordered pairs of axes. -/
theorem amGet_boundary_boundary (cc : CubicalComplex D) (x z : Cube D) :
    amGet (chainBoundary cc (cubeBoundary (R := R) cc x)) z =
      ∑ a : Fin D, ∑ b : Fin D, ddTerm cc x z a b := by
  rw [chainBoundary,
      amGet_linearApply _ _ (fun y => amValid_cubeBoundary cc y) z,
      ← List.sum_toFinset _ (amValid_cubeBoundary (R := R) cc x).1]
  set w := cubeBoundary (R := R) cc x with hw
  set S := (amKeys w).toFinset with hS
  set Y := S ∪ Finset.univ.biUnion
      (fun a : Fin D => {outerCell x a, innerCell x a}) with hY
  have hsub : S ⊆ Y := Finset.subset_union_left
  have hzero : ∀ y ∈ Y, y ∉ S →
      amGet w y * amGet (cubeBoundary cc y) z = 0 := by
    intro y _ hyS
    have : y ∉ amKeys w := fun hc => hyS (List.mem_toFinset.mpr hc)
    rw [amGet_eq_zero_of_not_mem this, zero_mul]
  rw [Finset.sum_subset hsub hzero]
  have hexp : ∀ y ∈ Y, amGet w y * amGet (cubeBoundary cc y) z =
      ∑ a : Fin D, bdTermM cc (fun _ => true) x a y *
        amGet (cubeBoundary (R := R) cc y) z := by
    intro y _
    rw [hw, amGet_cubeBoundary, Finset.sum_mul]
  rw [Finset.sum_congr rfl hexp, Finset.sum_comm]
  apply Finset.sum_congr rfl
  intro a _
  rw [← ddFace_eq_sum]
  have hout : outerCell x a ∈ Y := by
    apply Finset.mem_union_right
    apply Finset.mem_biUnion.mpr
    exact ⟨a, Finset.mem_univ a, by simp⟩
  have hin : innerCell x a ∈ Y := by
    apply Finset.mem_union_right
    apply Finset.mem_biUnion.mpr
    exact ⟨a, Finset.mem_univ a, by simp⟩
  rw [ddFace]
  by_cases hbit : x.extent.testBit a.val
  · rw [if_pos hbit]
    have hterm : ∀ y ∈ Y, bdTermM cc (fun _ => true) x a y *
        amGet (cubeBoundary (R := R) cc y) z =
        (if x.orthant a ≠ cc.maximum a ∧ y = outerCell x a then
          (msign x.extent a.val : R) *
            amGet (cubeBoundary (R := R) cc y) z else 0) +
        (if y = innerCell x a then
          -(msign x.extent a.val : R) *
            amGet (cubeBoundary (R := R) cc y) z else 0) := by
      intro y _
      rw [bdTermM_true, if_pos hbit, add_mul, ite_mul, zero_mul,
          ite_mul, zero_mul]
    rw [Finset.sum_congr rfl hterm, Finset.sum_add_distrib]
    congr 1
    · by_cases hmax : x.orthant a ≠ cc.maximum a
      · rw [if_pos hmax]
        have hcond : ∀ y ∈ Y,
            (if x.orthant a ≠ cc.maximum a ∧ y = outerCell x a then
              (msign x.extent a.val : R) *
                amGet (cubeBoundary (R := R) cc y) z else 0) =
            (if y = outerCell x a then
              (msign x.extent a.val : R) *
                amGet (cubeBoundary (R := R) cc y) z else 0) := by
          intro y _
          apply if_congr _ rfl rfl
          exact and_iff_right hmax
        rw [Finset.sum_congr rfl hcond, Finset.sum_ite_eq' Y,
            if_pos hout]
      · rw [if_neg hmax]
        apply Finset.sum_eq_zero
        intro y _
        exact if_neg (fun hc => hmax hc.1)
    · rw [Finset.sum_ite_eq' Y, if_pos hin]
  · rw [if_neg hbit]
    apply Finset.sum_eq_zero
    intro y _
    rw [bdTermM_true, if_neg hbit, zero_mul]

/-! ### Pairwise cancellation in the boundary double sum -/

theorem ddTerm_eq_zero_left (cc : CubicalComplex D) (x z : Cube D)
    {a : Fin D} (b : Fin D) (ha : x.extent.testBit a.val = false) :
    ddTerm cc x z a b = (0 : R) := by
  rw [ddTerm, if_neg (by rw [ha]; exact Bool.false_ne_true)]

theorem ddTerm_eq_zero_right (cc : CubicalComplex D) (x z : Cube D)
    (a : Fin D) {b : Fin D} (hb : x.extent.testBit b.val = false) :
    ddTerm cc x z a b = (0 : R) := by
  rw [ddTerm]
  by_cases ha : x.extent.testBit a.val
  · have h1 : (outerCell x a).extent.testBit b.val = false := by
      rw [outerCell_extent, testBit_sub_pow ha, hb, Bool.and_false]
    have h2 : (innerCell x a).extent.testBit b.val = false := by
      rw [innerCell_extent, testBit_sub_pow ha, hb, Bool.and_false]
    have hb1 : bdTermM cc (fun _ => true) (outerCell x a) b z = (0 : R) := by
      rw [bdTermM, if_neg (by rw [h1]; exact Bool.false_ne_true)]
    have hb2 : bdTermM cc (fun _ => true) (innerCell x a) b z = (0 : R) := by
      rw [bdTermM, if_neg (by rw [h2]; exact Bool.false_ne_true)]
    rw [if_pos ha, hb1, hb2, mul_zero, mul_zero, ite_self, add_zero]
  · rw [if_neg ha]

theorem ddTerm_diag (cc : CubicalComplex D) (x z : Cube D) (a : Fin D) :
    ddTerm cc x z a a = (0 : R) := by
  rw [ddTerm]
  by_cases ha : x.extent.testBit a.val
  · have h1 : (outerCell x a).extent.testBit a.val = false := by
      rw [outerCell_extent, testBit_sub_pow ha]
      simp
    have h2 : (innerCell x a).extent.testBit a.val = false := by
      rw [innerCell_extent, testBit_sub_pow ha]
      simp
    have hb1 : bdTermM cc (fun _ => true) (outerCell x a) a z = (0 : R) := by
      rw [bdTermM, if_neg (by rw [h1]; exact Bool.false_ne_true)]
    have hb2 : bdTermM cc (fun _ => true) (innerCell x a) a z = (0 : R) := by
      rw [bdTermM, if_neg (by rw [h2]; exact Bool.false_ne_true)]
    rw [if_pos ha, hb1, hb2, mul_zero, mul_zero, ite_self, add_zero]
  · rw [if_neg ha]

theorem ddTerm_cancel_lt (cc : CubicalComplex D) (x z : Cube D)
    {a b : Fin D} (hab : a.val < b.val)
    (ha : x.extent.testBit a.val = true)
    (hb : x.extent.testBit b.val = true) :
    ddTerm cc x z a b + ddTerm cc x z b a = (0 : R) := by
  have hne : a ≠ b := fun h => by rw [h] at hab; exact Nat.lt_irrefl _ hab
  have hvne : a.val ≠ b.val := Nat.ne_of_lt hab
  have tb1 : (outerCell x a).extent.testBit b.val = true := by
    rw [outerCell_extent, testBit_sub_pow ha, hb]
    simp [Ne.symm hvne]
  have tb2 : (innerCell x a).extent.testBit b.val = true := by
    rw [innerCell_extent, testBit_sub_pow ha, hb]
    simp [Ne.symm hvne]
  have tb3 : (outerCell x b).extent.testBit a.val = true := by
    rw [outerCell_extent, testBit_sub_pow hb, ha]
    simp [hvne]
  have tb4 : (innerCell x b).extent.testBit a.val = true := by
    rw [innerCell_extent, testBit_sub_pow hb, ha]
    simp [hvne]
  have ms1 : (msign (outerCell x a).extent b.val : R) =
      -msign x.extent b.val := by
    rw [outerCell_extent]
    exact msign_sub_pow_lt ha hab
  have ms2 : (msign (innerCell x a).extent b.val : R) =
      -msign x.extent b.val := by
    rw [innerCell_extent]
    exact msign_sub_pow_lt ha hab
  have ms3 : (msign (outerCell x b).extent a.val : R) =
      msign x.extent a.val := by
    rw [outerCell_extent]
    exact msign_sub_pow_ge hb (Nat.le_of_lt hab)
  have ms4 : (msign (innerCell x b).extent a.val : R) =
      msign x.extent a.val := by
    rw [innerCell_extent]
    exact msign_sub_pow_ge hb (Nat.le_of_lt hab)
  rw [ddTerm, ddTerm, if_pos ha, if_pos hb,
      bdTermM_true, bdTermM_true, bdTermM_true, bdTermM_true,
      if_pos tb1, if_pos tb2, if_pos tb3, if_pos tb4,
      ms1, ms2, ms3, ms4,
      outerCell_orthant_apply_ne x (Ne.symm hne),
      innerCell_orthant,
      outerCell_orthant_apply_ne x hne,
      innerCell_orthant,
      ← outer_outer_comm hne,
      inner_outer_comm x b a, ← inner_outer_comm x a b,
      ← inner_inner_comm x a b,
      ite_and_ring, ite_and_ring, ite_and_ring, ite_and_ring]
  split_ifs <;> ring

theorem ddTerm_cancel (cc : CubicalComplex D) (x z : Cube D)
    {a b : Fin D} (hne : a ≠ b) :
    ddTerm cc x z a b + ddTerm cc x z b a = (0 : R) := by
  by_cases ha : x.extent.testBit a.val
  · by_cases hb : x.extent.testBit b.val
    · have hvne : a.val ≠ b.val := fun h => hne (Fin.ext h)
      rcases Nat.lt_or_ge a.val b.val with hlt | hge
      · exact ddTerm_cancel_lt cc x z hlt ha hb
      · have hlt' : b.val < a.val := Nat.lt_of_le_of_ne hge (Ne.symm hvne)
        rw [add_comm]
        exact ddTerm_cancel_lt cc x z hlt' hb ha
    · have hb' : x.extent.testBit b.val = false :=
        Bool.eq_false_iff.mpr hb
      rw [ddTerm_eq_zero_right cc x z a hb',
          ddTerm_eq_zero_left cc x z a hb', add_zero]
  · have ha' : x.extent.testBit a.val = false :=
      Bool.eq_false_iff.mpr ha
    rw [ddTerm_eq_zero_left cc x z b ha',
        ddTerm_eq_zero_right cc x z b ha', add_zero]

theorem sum_ddTerm_eq_zero (cc : CubicalComplex D) (x z : Cube D) :
    ∑ a : Fin D, ∑ b : Fin D, (ddTerm cc x z a b : R) = 0 := by
  rw [← Finset.sum_product']
  apply Finset.sum_involution (fun p _ => (p.2, p.1))
  · intro p _
    by_cases hp : p.1 = p.2
    · rw [show ((p.2, p.1) : Fin D × Fin D).1 = p.2 from rfl,
          show ((p.2, p.1) : Fin D × Fin D).2 = p.1 from rfl, hp,
          ddTerm_diag, add_zero]
    · exact ddTerm_cancel cc x z hp
  · intro p _ hf hc
    apply hf
    have hp : p.1 = p.2 := (congrArg Prod.snd hc).symm ▸ rfl
    rw [hp, ddTerm_diag]
  · intro p _
    exact Finset.mem_univ _
  · intro p _
    rfl

theorem amValid_chainBoundary (cc : CubicalComplex D)
    (chain : List (Cube D × R)) : amValid (chainBoundary cc chain) :=
  amValid_linearApply _ _

/-- `boundary(complex, boundary(complex, x))` is the empty chain. -/
theorem chainBoundary_cubeBoundary (cc : CubicalComplex D) (x : Cube D) :
    chainBoundary cc (cubeBoundary (R := R) cc x) = [] := by
  apply amEmpty_of_get_eq_zero (amValid_chainBoundary cc _)
  intro z
  rw [amGet_boundary_boundary, sum_ddTerm_eq_zero]

/-! ### The double sum behind the coboundary of a coboundary -/

/-- The contribution of unspanned axis `a` of `x` to the coefficient of
`z` in `coboundary(coboundary x)`. -/
def dcFace (cc : CubicalComplex D) (x z : Cube D) (a : Fin D) : R :=
  if x.extent.testBit a.val = false then
    (if x.orthant a ≠ cc.minimum a then
      (msign x.extent a.val : R) *
        amGet (cubeCoboundary cc (innerCoCell x a)) z
     else 0) +
    -(msign x.extent a.val : R) *
      amGet (cubeCoboundary cc (outerCoCell x a)) z
  else 0

/-- One summand of the fully expanded double sum for
`coboundary(coboundary x)`. -/
def dcTerm (cc : CubicalComplex D) (x z : Cube D) (a b : Fin D) : R :=
  if x.extent.testBit a.val = false then
    (if x.orthant a ≠ cc.minimum a then
      (msign x.extent a.val : R) *
        cobTermM cc (fun _ => true) (innerCoCell x a) b z
     else 0) +
    -(msign x.extent a.val : R) *
      cobTermM cc (fun _ => true) (outerCoCell x a) b z
  else 0

theorem dcFace_eq_sum (cc : CubicalComplex D) (x z : Cube D) (a : Fin D) :
    (dcFace cc x z a : R) = ∑ b : Fin D, dcTerm cc x z a b := by
  rw [dcFace]
  by_cases hbit : x.extent.testBit a.val = false
  · rw [if_pos hbit, amGet_cubeCoboundary, amGet_cubeCoboundary,
        Finset.mul_sum, Finset.mul_sum, ite_finset_sum,
        ← Finset.sum_add_distrib]
    apply Finset.sum_congr rfl
    intro b _
    rw [dcTerm, if_pos hbit]
  · rw [if_neg hbit, eq_comm]
    apply Finset.sum_eq_zero
    intro b _
    rw [dcTerm, if_neg hbit]

/-- The coefficient of `z` in the coboundary of the coboundary of `x`
as a double sum over ordered pairs of axes. -/
theorem amGet_coboundary_coboundary (cc : CubicalComplex D) (x z : Cube D) :
    amGet (chainCoboundary cc (cubeCoboundary (R := R) cc x)) z =
      ∑ a : Fin D, ∑ b : Fin D, dcTerm cc x z a b := by
  rw [chainCoboundary,
      amGet_linearApply _ _ (fun y => amValid_cubeCoboundary cc y) z,
      ← List.sum_toFinset _ (amValid_cubeCoboundary (R := R) cc x).1]
  set w := cubeCoboundary (R := R) cc x with hw
  set S := (amKeys w).toFinset with hS
  set Y := S ∪ Finset.univ.biUnion
      (fun a : Fin D => {innerCoCell x a, outerCoCell x a}) with hY
  have hsub : S ⊆ Y := Finset.subset_union_left
  have hzero : ∀ y ∈ Y, y ∉ S →
      amGet w y * amGet (cubeCoboundary cc y) z = 0 := by
    intro y _ hyS
    have : y ∉ amKeys w := fun hc => hyS (List.mem_toFinset.mpr hc)
    rw [amGet_eq_zero_of_not_mem this, zero_mul]
  rw [Finset.sum_subset hsub hzero]
  have hexp : ∀ y ∈ Y, amGet w y * amGet (cubeCoboundary cc y) z =
      ∑ a : Fin D, cobTermM cc (fun _ => true) x a y *
        amGet (cubeCoboundary (R := R) cc y) z := by
    intro y _
    rw [hw, amGet_cubeCoboundary, Finset.sum_mul]
  rw [Finset.sum_congr rfl hexp, Finset.sum_comm]
  apply Finset.sum_congr rfl
  intro a _
  rw [← dcFace_eq_sum]
  have hinn : innerCoCell x a ∈ Y := by
    apply Finset.mem_union_right
    apply Finset.mem_biUnion.mpr
    exact ⟨a, Finset.mem_univ a, by simp⟩
  have hout : outerCoCell x a ∈ Y := by
    apply Finset.mem_union_right
    apply Finset.mem_biUnion.mpr
    exact ⟨a, Finset.mem_univ a, by simp⟩
  rw [dcFace]
  by_cases hbit : x.extent.testBit a.val = false
  · rw [if_pos hbit]
    have hterm : ∀ y ∈ Y, cobTermM cc (fun _ => true) x a y *
        amGet (cubeCoboundary (R := R) cc y) z =
        (if x.orthant a ≠ cc.minimum a ∧ y = innerCoCell x a then
          (msign x.extent a.val : R) *
            amGet (cubeCoboundary (R := R) cc y) z else 0) +
        (if y = outerCoCell x a then
          -(msign x.extent a.val : R) *
            amGet (cubeCoboundary (R := R) cc y) z else 0) := by
      intro y _
      rw [cobTermM_true, if_pos hbit, add_mul, ite_mul, zero_mul,
          ite_mul, zero_mul]
    rw [Finset.sum_congr rfl hterm, Finset.sum_add_distrib]
    congr 1
    · by_cases hmin : x.orthant a ≠ cc.minimum a
      · rw [if_pos hmin]
        have hcond : ∀ y ∈ Y,
            (if x.orthant a ≠ cc.minimum a ∧ y = innerCoCell x a then
              (msign x.extent a.val : R) *
                amGet (cubeCoboundary (R := R) cc y) z else 0) =
            (if y = innerCoCell x a then
              (msign x.extent a.val : R) *
                amGet (cubeCoboundary (R := R) cc y) z else 0) := by
          intro y _
          apply if_congr _ rfl rfl
          exact and_iff_right hmin
        rw [Finset.sum_congr rfl hcond, Finset.sum_ite_eq' Y,
            if_pos hinn]
      · rw [if_neg hmin]
        apply Finset.sum_eq_zero
        intro y _
        exact if_neg (fun hc => hmin hc.1)
    · rw [Finset.sum_ite_eq' Y, if_pos hout]
  · rw [if_neg hbit]
    apply Finset.sum_eq_zero
    intro y _
    rw [cobTermM_true, if_neg hbit, zero_mul]

/-! ### Pairwise cancellation in the coboundary double sum -/

theorem dcTerm_eq_zero_left (cc : CubicalComplex D) (x z : Cube D)
    {a : Fin D} (b : Fin D) (ha : x.extent.testBit a.val = true) :
    dcTerm cc x z a b = (0 : R) := by
  rw [dcTerm, if_neg (by simp [ha])]

theorem dcTerm_eq_zero_right (cc : CubicalComplex D) (x z : Cube D)
    (a : Fin D) {b : Fin D} (hb : x.extent.testBit b.val = true) :
    dcTerm cc x z a b = (0 : R) := by
  rw [dcTerm]
  by_cases ha : x.extent.testBit a.val = false
  · have h1 : (innerCoCell x a).extent.testBit b.val = true := by
      rw [innerCoCell_extent, testBit_add_pow ha, hb, Bool.or_true]
    have h2 : (outerCoCell x a).extent.testBit b.val = true := by
      rw [outerCoCell_extent, testBit_add_pow ha, hb, Bool.or_true]
    have hb1 : cobTermM cc (fun _ => true) (innerCoCell x a) b z =
        (0 : R) := by
      rw [cobTermM, if_neg (by simp [h1])]
    have hb2 : cobTermM cc (fun _ => true) (outerCoCell x a) b z =
        (0 : R) := by
      rw [cobTermM, if_neg (by simp [h2])]
    rw [if_pos ha, hb1, hb2, mul_zero, mul_zero, ite_self, add_zero]
  · rw [if_neg ha]

theorem dcTerm_diag (cc : CubicalComplex D) (x z : Cube D) (a : Fin D) :
    dcTerm cc x z a a = (0 : R) := by
  rw [dcTerm]
  by_cases ha : x.extent.testBit a.val = false
  · have h1 : (innerCoCell x a).extent.testBit a.val = true := by
      rw [innerCoCell_extent, testBit_add_pow ha]
      simp
    have h2 : (outerCoCell x a).extent.testBit a.val = true := by
      rw [outerCoCell_extent, testBit_add_pow ha]
      simp
    have hb1 : cobTermM cc (fun _ => true) (innerCoCell x a) a z =
        (0 : R) := by
      rw [cobTermM, if_neg (by simp [h1])]
    have hb2 : cobTermM cc (fun _ => true) (outerCoCell x a) a z =
        (0 : R) := by
      rw [cobTermM, if_neg (by simp [h2])]
    rw [if_pos ha, hb1, hb2, mul_zero, mul_zero, ite_self, add_zero]
  · rw [if_neg ha]

theorem dcTerm_cancel_lt (cc : CubicalComplex D) (x z : Cube D)
    {a b : Fin D} (hab : a.val < b.val)
    (ha : x.extent.testBit a.val = false)
    (hb : x.extent.testBit b.val = false) :
    dcTerm cc x z a b + dcTerm cc x z b a = (0 : R) := by
  have hne : a ≠ b := fun h => by rw [h] at hab; exact Nat.lt_irrefl _ hab
  have hvne : a.val ≠ b.val := Nat.ne_of_lt hab
  have tb1 : (innerCoCell x a).extent.testBit b.val = false := by
    rw [innerCoCell_extent, testBit_add_pow ha, hb]
    simp [Ne.symm hvne]
  have tb2 : (outerCoCell x a).extent.testBit b.val = false := by
    rw [outerCoCell_extent, testBit_add_pow ha, hb]
    simp [Ne.symm hvne]
  have tb3 : (innerCoCell x b).extent.testBit a.val = false := by
    rw [innerCoCell_extent, testBit_add_pow hb, ha]
    simp [hvne]
  have tb4 : (outerCoCell x b).extent.testBit a.val = false := by
    rw [outerCoCell_extent, testBit_add_pow hb, ha]
    simp [hvne]
  have ms1 : (msign (innerCoCell x a).extent b.val : R) =
      -msign x.extent b.val := by
    rw [innerCoCell_extent]
    exact msign_add_pow_lt ha hab
  have ms2 : (msign (outerCoCell x a).extent b.val : R) =
      -msign x.extent b.val := by
    rw [outerCoCell_extent]
    exact msign_add_pow_lt ha hab
  have ms3 : (msign (innerCoCell x b).extent a.val : R) =
      msign x.extent a.val := by
    rw [innerCoCell_extent]
    exact msign_add_pow_ge hb (Nat.le_of_lt hab)
  have ms4 : (msign (outerCoCell x b).extent a.val : R) =
      msign x.extent a.val := by
    rw [outerCoCell_extent]
    exact msign_add_pow_ge hb (Nat.le_of_lt hab)
  rw [dcTerm, dcTerm, if_pos ha, if_pos hb,
      cobTermM_true, cobTermM_true, cobTermM_true, cobTermM_true,
      if_pos tb1, if_pos tb2, if_pos tb3, if_pos tb4,
      ms1, ms2, ms3, ms4,
      innerCoCell_orthant_apply_ne x (Ne.symm hne),
      outerCoCell_orthant,
      innerCoCell_orthant_apply_ne x hne,
      outerCoCell_orthant,
      ← co_inner_inner_comm hne,
      co_outer_inner_comm x b a, ← co_outer_inner_comm x a b,
      ← co_outer_outer_comm x a b,
      ite_and_ring, ite_and_ring, ite_and_ring, ite_and_ring]
  split_ifs <;> ring

theorem dcTerm_cancel (cc : CubicalComplex D) (x z : Cube D)
    {a b : Fin D} (hne : a ≠ b) :
    dcTerm cc x z a b + dcTerm cc x z b a = (0 : R) := by
  by_cases ha : x.extent.testBit a.val = false
  · by_cases hb : x.extent.testBit b.val = false
    · have hvne : a.val ≠ b.val := fun h => hne (Fin.ext h)
      rcases Nat.lt_or_ge a.val b.val with hlt | hge
      · exact dcTerm_cancel_lt cc x z hlt ha hb
      · have hlt' : b.val < a.val := Nat.lt_of_le_of_ne hge (Ne.symm hvne)
        rw [add_comm]
        exact dcTerm_cancel_lt cc x z hlt' hb ha
    · have hb' : x.extent.testBit b.val = true := by
        revert hb
        cases x.extent.testBit b.val <;> simp
      rw [dcTerm_eq_zero_right cc x z a hb',
          dcTerm_eq_zero_left cc x z a hb', add_zero]
  · have ha' : x.extent.testBit a.val = true := by
      revert ha
      cases x.extent.testBit a.val <;> simp
    rw [dcTerm_eq_zero_left cc x z b ha',
        dcTerm_eq_zero_right cc x z b ha', add_zero]

theorem sum_dcTerm_eq_zero (cc : CubicalComplex D) (x z : Cube D) :
    ∑ a : Fin D, ∑ b : Fin D, (dcTerm cc x z a b : R) = 0 := by
  rw [← Finset.sum_product']
  apply Finset.sum_involution (fun p _ => (p.2, p.1))
  · intro p _
    by_cases hp : p.1 = p.2
    · rw [show ((p.2, p.1) : Fin D × Fin D).1 = p.2 from rfl,
          show ((p.2, p.1) : Fin D × Fin D).2 = p.1 from rfl, hp,
          dcTerm_diag, add_zero]
    · exact dcTerm_cancel cc x z hp
  · intro p _ hf hc
    apply hf
    have hp : p.1 = p.2 := (congrArg Prod.snd hc).symm ▸ rfl
    rw [hp, dcTerm_diag]
  · intro p _
    exact Finset.mem_univ _
  · intro p _
    rfl

theorem amValid_chainCoboundary (cc : CubicalComplex D)
    (chain : List (Cube D × R)) : amValid (chainCoboundary cc chain) :=
  amValid_linearApply _ _

/-- `coboundary(complex, coboundary(complex, x))` is the empty chain. -/
theorem chainCoboundary_cubeCoboundary (cc : CubicalComplex D)
    (x : Cube D) :
    chainCoboundary cc (cubeCoboundary (R := R) cc x) = [] := by
  apply amEmpty_of_get_eq_zero (amValid_chainCoboundary cc _)
  intro z
  rw [amGet_coboundary_coboundary, sum_dcTerm_eq_zero]

/-! ### The concrete D = 3 complex of the spec's sign/edge scenarios -/

/-- Minimum orthant the origin, maximum orthant `(2, 4, 5)`; used with
coefficient ring `Z mod 5`. -/
def specComplex : CubicalComplex 3 :=
  ⟨fun _ => 0, ![2, 4, 5]⟩

end Cubical

/-- A 2-dimensional grid with minimum orthant the origin and maximum
orthant `(2, 2)`. -/
def c2Complex : CubicalComplex 2 :=
  ⟨fun _ => 0, ![2, 2]⟩

/-- The unit square at orthant `(1, 1)` spanning both axes. -/
def c2Square : Cube 2 :=
  ⟨![1, 1], 3⟩

/-- C2.  For every cubical complex of ambient dimension `CCDIM ≥ 2` and
every cube `x` within the complex's bounds, applying the unconstrained
boundary operator twice yields the empty (default-constructed) chain,
and likewise for the coboundary operator. -/
theorem c2_boundary_of_boundary_zero (D : ℕ) (R : Type) [DecidableEq R]
    [CommRing R] (cc : CubicalComplex D) (x : Cube D)
    (_hD : 2 ≤ D)
    (_hx : ∀ b : Fin D, cc.minimum b ≤ x.orthant b ∧
        x.orthant b ≤ cc.maximum b) :
    chainBoundary cc (cubeBoundary (R := R) cc x) = [] ∧
    chainCoboundary cc (cubeCoboundary (R := R) cc x) = [] :=
  ⟨chainBoundary_cubeBoundary cc x, chainCoboundary_cubeCoboundary cc x⟩

theorem c2_boundary_of_boundary_zero_witness :
    chainBoundary c2Complex (cubeBoundary (R := ℤ) c2Complex c2Square) =
      [] ∧
    chainCoboundary c2Complex
      (cubeCoboundary (R := ℤ) c2Complex c2Square) = [] :=
  c2_boundary_of_boundary_zero 2 ℤ c2Complex c2Square (by decide)
    (by decide)

/-- C3.  In the D = 3 complex with ring `Z mod 5`, minimum orthant the
origin and maximum orthant `(2, 4, 5)`, the boundary of the square cube
`((0,0,0), 0b101)` is exactly the 4-term chain mapping
`((0,0,1), 0b001) ↦ -1`, `((1,0,0), 0b100) ↦ +1`,
`((0,0,0), 0b001) ↦ +1` and `((0,0,0), 0b100) ↦ -1` (4 stored entries,
and by the chain invariant no others). -/
theorem c3_square_boundary :
    amGet (cubeBoundary (R := ZMod 5) specComplex ⟨![0, 0, 0], 5⟩)
        ⟨![0, 0, 1], 1⟩ = -1 ∧
    amGet (cubeBoundary (R := ZMod 5) specComplex ⟨![0, 0, 0], 5⟩)
        ⟨![1, 0, 0], 4⟩ = 1 ∧
    amGet (cubeBoundary (R := ZMod 5) specComplex ⟨![0, 0, 0], 5⟩)
        ⟨![0, 0, 0], 1⟩ = 1 ∧
    amGet (cubeBoundary (R := ZMod 5) specComplex ⟨![0, 0, 0], 5⟩)
        ⟨![0, 0, 0], 4⟩ = -1 ∧
    (cubeBoundary (R := ZMod 5) specComplex ⟨![0, 0, 0], 5⟩).length = 4 := by
  refine ⟨by decide, by decide, by decide, by decide, by decide⟩

/-- C4.  For every cell and every axis `a` it spans (within the grid on
that axis), the boundary contains the outer face — axis-`a` coordinate
incremented, extent bit `a` cleared — with coefficient `+coef` (the
running coefficient `msign`, provided the predicate accepts the face),
unless the cell's axis-`a` coordinate equals the complex's maximum
orthant coordinate, in which case no outer face term is produced.
Concretely, in the D = 3, `Z mod 5` complex with maximum orthant
`(2,4,5)`, the boundary of `((2,4,5), 0b001)` is exactly the one-term
chain `((2,4,5), 0b000) ↦ -1`. -/
theorem c4_outer_face_rule :
    (∀ (D : ℕ) (R : Type) [DecidableEq R] [CommRing R]
        (cc : CubicalComplex D) (x : Cube D) (cond : Cube D → Bool)
        (a : Fin D),
      x.extent.testBit a.val = true →
      x.orthant a ≤ cc.maximum a →
      (x.orthant a ≠ cc.maximum a →
        amGet (boundaryIf (R := R) cc x cond) (outerCell x a) =
          if cond (outerCell x a) = true then (msign x.extent a.val : R)
          else 0) ∧
      (x.orthant a = cc.maximum a →
        outerCell x a ∉ amKeys (boundaryIf (R := R) cc x cond))) ∧
    (amGet (cubeBoundary (R := ZMod 5) specComplex ⟨![2, 4, 5], 1⟩)
        ⟨![2, 4, 5], 0⟩ = -1 ∧
      (cubeBoundary (R := ZMod 5) specComplex ⟨![2, 4, 5], 1⟩).length = 1) := by
  constructor
  · intro D R _ _ cc x cond a ha _hle
    constructor
    · intro hmax
      rw [amGet_boundaryIf_outer cond ha]
      apply if_congr _ rfl rfl
      constructor
      · intro h
        exact h.2
      · intro h
        exact ⟨hmax, h⟩
    · intro hmax hmem
      have hget := (mem_amKeys_iff (amValid_boundaryIf cc x cond)).mp hmem
      apply hget
      rw [amGet_boundaryIf_outer cond ha, if_neg (fun hc => hc.1 hmax)]
  · exact ⟨by decide, by decide⟩

/-- Witness for C4's general clause: a spanned axis away from the
maximum edge in a one-dimensional complex over ℤ. -/
theorem c4_outer_face_rule_witness :
    amGet (boundaryIf (R := ℤ) (⟨fun _ => 0, ![3]⟩ : CubicalComplex 1)
        ⟨![0], 1⟩ (fun _ => true)) (outerCell ⟨![0], 1⟩ 0) =
      if (fun _ => true : Cube 1 → Bool) (outerCell ⟨![0], 1⟩ 0) = true
      then (msign 1 0 : ℤ) else 0 :=
  (c4_outer_face_rule.1 1 ℤ ⟨fun _ => 0, ![3]⟩ ⟨![0], 1⟩ (fun _ => true) 0
      (by decide) (by decide)).1 (by decide)

/-- C5.  For every cell and every axis `a` it does not span (with the
cell inside the grid on that axis), the coboundary contains the inner
coface — axis-`a` coordinate decremented, extent bit `a` set — with
coefficient `+coef` (the running coefficient `msign`, provided the
predicate accepts it), unless the cell's axis-`a` coordinate equals the
complex's minimum orthant coordinate.  The no-term half of the rule is
stated for `1 ≤ minimum` because orthant coordinates are unsigned: at
coordinate 0 the decremented-coordinate formula does not denote a cell
below the grid (the truncated value aliases the outer coface), and the
minimum-orthant case with coordinate 0 is covered by the concrete
scenario: the coboundary of the vertex `((0,0,0), 0b000)` in the D = 3,
`Z mod 5` complex is exactly the 3 outer cofaces, one per axis, each
with coefficient `-1`. -/
theorem c5_inner_coface_rule :
    (∀ (D : ℕ) (R : Type) [DecidableEq R] [CommRing R]
        (cc : CubicalComplex D) (x : Cube D) (cond : Cube D → Bool)
        (a : Fin D),
      x.extent.testBit a.val = false →
      cc.minimum a ≤ x.orthant a →
      (x.orthant a ≠ cc.minimum a →
        amGet (coboundaryIf (R := R) cc x cond) (innerCoCell x a) =
          if cond (innerCoCell x a) = true then (msign x.extent a.val : R)
          else 0) ∧
      (x.orthant a = cc.minimum a → 1 ≤ cc.minimum a →
        innerCoCell x a ∉ amKeys (coboundaryIf (R := R) cc x cond))) ∧
    (amGet (cubeCoboundary (R := ZMod 5) specComplex ⟨![0, 0, 0], 0⟩)
        ⟨![0, 0, 0], 1⟩ = -1 ∧
     amGet (cubeCoboundary (R := ZMod 5) specComplex ⟨![0, 0, 0], 0⟩)
        ⟨![0, 0, 0], 2⟩ = -1 ∧
     amGet (cubeCoboundary (R := ZMod 5) specComplex ⟨![0, 0, 0], 0⟩)
        ⟨![0, 0, 0], 4⟩ = -1 ∧
     (cubeCoboundary (R := ZMod 5) specComplex ⟨![0, 0, 0], 0⟩).length = 3) := by
  constructor
  · intro D R _ _ cc x cond a ha hle
    constructor
    · intro hmin
      have hone : 1 ≤ x.orthant a := by omega
      rw [amGet_coboundaryIf_inner cond ha hone]
      apply if_congr _ rfl rfl
      constructor
      · intro h
        exact h.2
      · intro h
        exact ⟨hmin, h⟩
    · intro hmin h1
      exact inner_not_mem_coboundaryIf_at_min cond hmin h1
  · exact ⟨by decide, by decide, by decide, by decide⟩

/-- Witness for C5's general clause: an unspanned axis away from the
minimum edge in a one-dimensional complex over ℤ. -/
theorem c5_inner_coface_rule_witness :
    amGet (coboundaryIf (R := ℤ) (⟨fun _ => 0, ![3]⟩ : CubicalComplex 1)
        ⟨![1], 0⟩ (fun _ => true)) (innerCoCell ⟨![1], 0⟩ 0) =
      if (fun _ => true : Cube 1 → Bool) (innerCoCell ⟨![1], 0⟩ 0) = true
      then (msign 0 0 : ℤ) else 0 :=
  (c5_inner_coface_rule.1 1 ℤ ⟨fun _ => 0, ![3]⟩ ⟨![1], 0⟩ (fun _ => true) 0
      (by decide) (by decide)).1 (by decide)

end Chomp
